import Mathlib

/-!
# Verification of the noctune studio control-plane core

A shallow embedding, in Lean 4, of the filesystem-backed job-control core of
the noctune studio web application (path sandbox, permission ledger, run
controller, run state reader, event tail, approval mailbox), together with
theorems settling the specification claims about it.

Conventions of the embedding:

* JavaScript strings are modelled as Lean `String` (or `List Char` where
  character-level reasoning is needed); machine integers / timestamps as `Int`.
* Filesystem directories are modelled as association lists from file name to
  file content; `readFile` of an absent name is the `none` case.
* The JavaScript built-in `JSON.parse` is modelled by `jsonParse`, a parser for
  the JSON subset actually exercised by this program (objects, arrays, strings
  without escape sequences, integer numbers, booleans, null).  General theorems
  about batch parsing are stated parametrically in the parse function.
* Functions that can throw are modelled in `Except Unit` (the error payload is
  irrelevant to the claims); functions documented to swallow errors return
  plain values.
-/

namespace Noctune

/-- JSON values, as produced by the model of `JSON.parse`. -/
inductive JVal where
  | jnull : JVal
  | jbool : Bool → JVal
  | jnum : Int → JVal
  | jstr : String → JVal
  | jarr : List JVal → JVal
  | jobj : List (String × JVal) → JVal
deriving Repr

mutual

/-- Boolean equality on JSON values. -/
def JVal.beq : JVal → JVal → Bool
  | .jnull, .jnull => true
  | .jbool a, .jbool b => a == b
  | .jnum a, .jnum b => a == b
  | .jstr a, .jstr b => a == b
  | .jarr xs, .jarr ys => JVal.beqList xs ys
  | .jobj xs, .jobj ys => JVal.beqFields xs ys
  | _, _ => false

/-- Boolean equality on lists of JSON values. -/
def JVal.beqList : List JVal → List JVal → Bool
  | [], [] => true
  | x :: xs, y :: ys => JVal.beq x y && JVal.beqList xs ys
  | _, _ => false

/-- Boolean equality on JSON object field lists. -/
def JVal.beqFields : List (String × JVal) → List (String × JVal) → Bool
  | [], [] => true
  | (k, v) :: xs, (l, w) :: ys => k == l && JVal.beq v w && JVal.beqFields xs ys
  | _, _ => false

end

instance : BEq JVal := ⟨JVal.beq⟩

/-- Whitespace accepted between JSON tokens. -/
def isJsonWs (c : Char) : Bool :=
  c = ' ' || c = '\t' || c = '\n' || c = '\r'

/-- Skip JSON inter-token whitespace. -/
def skipWs : List Char → List Char
  | [] => []
  | c :: cs => if isJsonWs c then skipWs cs else c :: cs

/-- Characters allowed verbatim inside a (escape-free) JSON string literal. -/
def isPlainStrChar (c : Char) : Bool :=
  c ≠ '"' && c ≠ '\\' && c.toNat ≥ 0x20

/-- Parse the body of a JSON string literal (the opening quote already
consumed); escape sequences are outside the modelled subset. -/
def parseStrBody : List Char → Option (List Char × List Char)
  | [] => none
  | c :: cs =>
    if c = '"' then some ([], cs)
    else if isPlainStrChar c then
      match parseStrBody cs with
      | some (s, rest) => some (c :: s, rest)
      | none => none
    else none

/-- Decimal digits prefix of a character list. -/
def takeDigits : List Char → (List Char × List Char)
  | [] => ([], [])
  | c :: cs =>
    if c.isDigit then
      let (ds, rest) := takeDigits cs
      (c :: ds, rest)
    else ([], c :: cs)

/-- Value of a list of decimal digits. -/
def digitsVal (ds : List Char) : Nat :=
  ds.foldl (fun acc c => acc * 10 + (c.toNat - '0'.toNat)) 0

/-- Numeric value of a digit character. -/
def toDig (c : Char) : Nat := c.toNat - '0'.toNat

/-- Parse a JSON integer numeral honouring the no-leading-zero rule. -/
def parseIntNum : List Char → Option (Int × List Char)
  | '-' :: cs =>
    match parseIntNum cs with
    | some (n, rest) => if n ≥ 0 then some (-n, rest) else none
    | none => none
  | '0' :: cs => some (0, cs)
  | cs =>
    match takeDigits cs with
    | ([], _) => none
    | (ds, rest) => some ((digitsVal ds : Int), rest)

mutual

/-- Parse one JSON value (fuel-indexed recursion). -/
def parseVal : Nat → List Char → Option (JVal × List Char)
  | 0, _ => none
  | fuel + 1, cs =>
    match skipWs cs with
    | [] => none
    | c :: cs' =>
      if c = '{' then
        match skipWs cs' with
        | '}' :: rest => some (.jobj [], rest)
        | cs'' => parseFields fuel cs''
      else if c = '[' then
        match skipWs cs' with
        | ']' :: rest => some (.jarr [], rest)
        | cs'' => parseElems fuel cs''
      else if c = '"' then
        match parseStrBody cs' with
        | some (s, rest) => some (.jstr (String.mk s), rest)
        | none => none
      else if c = 't' then
        match cs' with
        | 'r' :: 'u' :: 'e' :: rest => some (.jbool true, rest)
        | _ => none
      else if c = 'f' then
        match cs' with
        | 'a' :: 'l' :: 's' :: 'e' :: rest => some (.jbool false, rest)
        | _ => none
      else if c = 'n' then
        match cs' with
        | 'u' :: 'l' :: 'l' :: rest => some (.jnull, rest)
        | _ => none
      else
        match parseIntNum (c :: cs') with
        | some (n, rest) => some (.jnum n, rest)
        | none => none

/-- Parse the members of a JSON object, positioned at the first key. -/
def parseFields : Nat → List Char → Option (JVal × List Char)
  | 0, _ => none
  | fuel + 1, cs =>
    match skipWs cs with
    | '"' :: cs' =>
      match parseStrBody cs' with
      | some (k, cs'') =>
        match skipWs cs'' with
        | ':' :: cs''' =>
          match parseVal fuel cs''' with
          | some (v, rest) =>
            match skipWs rest with
            | '}' :: rest' => some (.jobj [(String.mk k, v)], rest')
            | ',' :: rest' =>
              match parseFields fuel rest' with
              | some (.jobj fs, rest'') => some (.jobj ((String.mk k, v) :: fs), rest'')
              | _ => none
            | _ => none
          | none => none
        | _ => none
      | none => none
    | _ => none

/-- Parse the elements of a JSON array, positioned at the first element. -/
def parseElems : Nat → List Char → Option (JVal × List Char)
  | 0, _ => none
  | fuel + 1, cs =>
    match parseVal fuel cs with
    | some (v, rest) =>
      match skipWs rest with
      | ']' :: rest' => some (.jarr [v], rest')
      | ',' :: rest' =>
        match parseElems fuel rest' with
        | some (.jarr vs, rest'') => some (.jarr (v :: vs), rest'')
        | _ => none
      | _ => none
    | none => none

end

/-- Model of the JavaScript built-in `JSON.parse`, on the subset described in
the module docstring: `none` models a thrown `SyntaxError`. -/
def jsonParse (s : String) : Option JVal :=
  match parseVal (2 * s.length + 4) s.data with
  | some (v, rest) => if skipWs rest = [] then some v else none
  | none => none

/-! ## JavaScript value helpers -/

/-- JS truthiness `Boolean(x)` of a parsed JSON value; `none` models
`undefined`. -/
def jsTruthy : Option JVal → Bool
  | none => false
  | some .jnull => false
  | some (.jbool b) => b
  | some (.jnum n) => n != 0
  | some (.jstr s) => s != ""
  | some (.jarr _) => true
  | some (.jobj _) => true

/-- Does `v` pass the JS test `v && typeof v === 'object'` (true exactly for
non-null objects, arrays included)? -/
def jsObjLike : Option JVal → Bool
  | some (.jarr _) => true
  | some (.jobj _) => true
  | _ => false

/-- Is `k` a canonical JS array index (decimal numeral without leading zeros,
below 2^32 - 1)? -/
def isCanonIdx (k : String) : Bool :=
  match k.data with
  | [] => false
  | c :: cs =>
    if c = '0' then cs.isEmpty
    else c.isDigit && cs.all Char.isDigit && digitsVal k.data < 4294967295

/-- JS property read `v[k]` on a parsed JSON value; `none` models `undefined`.
Objects: field lookup (keys of parse-derived objects are unique; first match).
Arrays: canonical-index element access.  Property reads on scalars, which this
program only ever feeds into further chained reads or truthiness tests, are
modelled as `undefined`. -/
def getProp : JVal → String → Option JVal
  | .jobj fs, k => (fs.find? (fun p => p.fst = k)).map Prod.snd
  | .jarr xs, k => if isCanonIdx k then xs[digitsVal k.data]? else none
  | _, _ => none

/-- Optional-chaining property read `x?.[k]`. -/
def optGet (x : Option JVal) (k : String) : Option JVal :=
  match x with
  | none => none
  | some .jnull => none
  | some v => getProp v k

/-- Replace the field `k` of an object field list in place, or append it. -/
def setField : List (String × JVal) → String → JVal → List (String × JVal)
  | [], k, v => [(k, v)]
  | (l, w) :: fs, k, v => if l = k then (k, v) :: fs else (l, w) :: setField fs k v

/-- JS property assignment `o[k] = v`, restricted to the ways this program
uses it, returning the value `JSON.stringify` would subsequently serialize.
Objects: replace-or-append the field.  Arrays: a canonical-index assignment
updates or extends the array (interleaving holes serialize as `null`); any
other key is an expando property, which `JSON.stringify` drops, so the
serialized value is unchanged. -/
def setProp : JVal → String → JVal → JVal
  | .jobj fs, k, v => .jobj (setField fs k v)
  | .jarr xs, k, v =>
    if isCanonIdx k then
      let i := digitsVal k.data
      if i < xs.length then .jarr (xs.set i v)
      else .jarr (xs ++ List.replicate (i - xs.length) .jnull ++ [v])
    else .jarr xs
  | w, _, _ => w

/-! ## Permission ledger (`allow.ts`) -/

/-- In-memory permission-ledger state of `allow.ts`: the module-global
`onceTokens` and `allowedSessions` maps (a JS `Map`, whose keys are unique, is
modelled as a function into `Option`). -/
structure LedgerState where
  once : String → Option Int
  sessions : String → Option Int

/-- `Map.prototype.set`. -/
def mapSet (m : String → Option Int) (k : String) (v : Int) : String → Option Int :=
  fun k' => if k' = k then some v else m k'

/-- `Map.prototype.delete`. -/
def mapDel (m : String → Option Int) (k : String) : String → Option Int :=
  fun k' => if k' = k then none else m k'

/-- Default TTL of a one-time token (2 minutes). -/
def defaultOnceTtlMs : Int := 2 * 60 * 1000

/-- Default TTL of a session grant (12 hours). -/
def defaultSessionTtlMs : Int := 12 * 60 * 60 * 1000

/-- `issueOnceToken`: record a freshly generated token (the random token value
is a parameter of the model) with expiry `Date.now() + ttlMs`. -/
def issueOnceToken (st : LedgerState) (token : String) (now ttlMs : Int) :
    LedgerState × Int :=
  ({ st with once := mapSet st.once token (now + ttlMs) }, now + ttlMs)

/-- `consumeOnceToken`: check-and-remove.  A present token is deleted on
lookup whether or not it has expired; the call reports success iff the token
was present and `Date.now() > expiresAtMs` fails. -/
def consumeOnceToken (st : LedgerState) (now : Int) (token : String) :
    Bool × LedgerState :=
  match st.once token with
  | none => (false, st)
  | some exp =>
    let st' := { st with once := mapDel st.once token }
    (!(now > exp), st')

/-- `allowSession`: record a session grant with expiry `Date.now() + ttlMs`. -/
def allowSession (st : LedgerState) (sessionId : String) (now ttlMs : Int) :
    LedgerState × Int :=
  ({ st with sessions := mapSet st.sessions sessionId (now + ttlMs) }, now + ttlMs)

/-- `isSessionAllowed`: lazily expiring lookup; an expired entry is deleted by
the read that discovers the expiry.  (A stored expiry of exactly `0` is falsy
in JS and is reported as not-allowed without deletion.) -/
def isSessionAllowed (st : LedgerState) (now : Int) (sessionId : String) :
    Bool × LedgerState :=
  match st.sessions sessionId with
  | none => (false, st)
  | some exp =>
    if exp = 0 then (false, st)
    else if now > exp then
      (false, { st with sessions := mapDel st.sessions sessionId })
    else (true, st)

/-- On-disk persistent-allow document (`.noctune_cache/studio_allow.json`):
`none` = file absent or unreadable; `some none` = file present but not valid
JSON; `some (some v)` = file present and parsing to `v`.  The
`JSON.parse ∘ JSON.stringify` round trip, an identity guaranteed by the
JavaScript standard for parse-derived values, is abstracted by storing the
structured value. -/
def AllowDoc : Type := Option (Option JVal)

/-- The entry `setAlwaysAllowed` records for a browser id. -/
def grantRec (updatedAt : String) : JVal :=
  .jobj [("allowed", .jbool true), ("updatedAt", .jstr updatedAt)]

/-- `setAlwaysAllowed`: read-modify-write of the persistent-allow document.
A missing or unparsable document, or one whose root fails the JS test
`obj && typeof obj === 'object'`, is replaced by `{}`; likewise a `browsers`
member failing that test is replaced by `{}`; then
`obj.browsers[browserId] = { allowed: true, updatedAt }` and the document is
rewritten.  Returns the value the rewritten file parses to. -/
def setAlwaysAllowedDoc (doc : AllowDoc) (browserId updatedAt : String) : JVal :=
  let obj := match doc with
    | some (some v) => v
    | _ => .jobj []
  let obj := if jsObjLike (some obj) then obj else .jobj []
  let obj := if jsObjLike (getProp obj "browsers") then obj
             else setProp obj "browsers" (.jobj [])
  let browsers := (getProp obj "browsers").getD (.jobj [])
  setProp obj "browsers" (setProp browsers browserId (grantRec updatedAt))

/-- `isAlwaysAllowed` on the document contents:
`Boolean(obj?.browsers?.[browserId]?.allowed)`; a missing or unparsable file
yields `false`. -/
def isAlwaysAllowedDoc (doc : AllowDoc) (browserId : String) : Bool :=
  match doc with
  | some (some v) =>
    jsTruthy (optGet (optGet (optGet (some v) "browsers") browserId) "allowed")
  | _ => false

/-- `isAlwaysAllowed` including the `resolveRepoRootOrThrow` guard: a
disallowed repo root throws. -/
def isAlwaysAllowed (rootAllowed : Bool) (doc : AllowDoc) (browserId : String) :
    Except Unit Bool :=
  if rootAllowed then .ok (isAlwaysAllowedDoc doc browserId) else .error ()

/-! ## Cookies and write-permission evaluation -/

/-- Boolean prefix test on lists (JS `String.prototype.startsWith`). -/
def isPre [DecidableEq α] : List α → List α → Bool
  | [], _ => true
  | _ :: _, [] => false
  | a :: as, b :: bs => if a = b then isPre as bs else false

/-- JS `String.prototype.split` on a single separator character: every
occurrence separates, empty pieces are kept. -/
def splitOnChar (sep : Char) : List Char → List (List Char)
  | [] => [[]]
  | c :: cs =>
    if c = sep then [] :: splitOnChar sep cs
    else
      match splitOnChar sep cs with
      | p :: ps => (c :: p) :: ps
      | [] => [[c]]

/-- Whitespace removed by JS `String.prototype.trim` (the ASCII part; exotic
Unicode spaces do not occur in this program's inputs). -/
def isJsTrimWs (c : Char) : Bool :=
  c = ' ' || c = '\t' || c = '\n' || c = '\r' || c = '\x0b' || c = '\x0c'

/-- JS `String.prototype.trim` on character lists. -/
def trimChars (cs : List Char) : List Char :=
  ((cs.dropWhile isJsTrimWs).reverse.dropWhile isJsTrimWs).reverse

/-- JS `String.prototype.trim`. -/
def jsTrim (s : String) : String := String.mk (trimChars s.data)

/-- Value of a hexadecimal digit. -/
def hexVal (c : Char) : Option Nat :=
  if c.isDigit then some (c.toNat - '0'.toNat)
  else if 'a' ≤ c ∧ c ≤ 'f' then some (c.toNat - 'a'.toNat + 10)
  else if 'A' ≤ c ∧ c ≤ 'F' then some (c.toNat - 'A'.toNat + 10)
  else none

/-- Percent-decoding of single-byte (ASCII) escapes; a malformed escape is a
failure, and multi-byte UTF-8 escape sequences are outside the modelled
subset. -/
def percentDecode : List Char → Option (List Char)
  | [] => some []
  | '%' :: h1 :: h2 :: cs =>
    match hexVal h1, hexVal h2 with
    | some a, some b =>
      if 16 * a + b < 0x80 then (percentDecode cs).map (Char.ofNat (16 * a + b) :: ·)
      else none
    | _, _ => none
  | '%' :: _ => none
  | c :: cs => (percentDecode cs).map (c :: ·)

/-- Name of the long-lived per-browser identity cookie. -/
def browserCookieName : String := "noctune_studio_browser_id"

/-- Name of the per-session identity cookie. -/
def sessionCookieName : String := "noctune_studio_session_id"

/-- `getCookie`: split the Cookie header on `;`, trim each part, and return
the `decodeURIComponent`-decoded value of the first part named `name`;
`Except.error` models a `URIError` thrown by decoding. -/
def getCookie (header : Option String) (name : String) :
    Except Unit (Option String) :=
  match header with
  | none => .ok none
  | some h =>
    let parts := (splitOnChar ';' h.data).map trimChars
    match parts.find? (fun p => isPre (name.data ++ ['=']) p) with
    | some p =>
      match percentDecode (p.drop (name.length + 1)) with
      | some v => .ok (some (String.mk v))
      | none => .error ()
    | none => .ok none

/-- The grant tier by which a write was authorized (`mode` in
`computeAllowWrite`). -/
inductive Mode where
  | once : Mode
  | session : Mode
  | always : Mode
  | none : Mode
deriving Repr, DecidableEq

/-- Result record of `computeAllowWrite`. -/
structure PermDecision where
  allowed : Bool
  mode : Mode
deriving Repr, DecidableEq

/-- The one-time-token tier test
`opts.allowToken && consumeOnceToken(String(opts.allowToken))` of
`computeAllowWrite`, with the resulting ledger state (the source's `step1`
local). -/
def tier1Step (st : LedgerState) (now : Int) (allowToken : Option String) :
    Bool × LedgerState :=
  match allowToken with
  | some t => if t ≠ "" then consumeOnceToken st now t else (false, st)
  | none => (false, st)

/-- The session-tier test `sessionId && isSessionAllowed(sessionId)` of
`computeAllowWrite`, with the resulting ledger state (`step2`). -/
def tier2Step (st : LedgerState) (now : Int) (sid : Option String) :
    Bool × LedgerState :=
  match sid with
  | some s => if s ≠ "" then isSessionAllowed st now s else (false, st)
  | none => (false, st)

/-- `computeAllowWrite`: evaluate the three grant tiers in order (one-time
token, session grant, persistent grant), threading the ledger state (the
one-time tier consumes its token even on an expired miss, and the session
tier lazily deletes an expired grant); a thrown error — cookie decoding or
the root check inside `isAlwaysAllowed` — propagates. -/
def computeAllowWrite (rootAllowed : Bool) (doc : AllowDoc) (st : LedgerState)
    (now : Int) (allowToken : Option String) (cookieHeader : Option String) :
    Except Unit (PermDecision × LedgerState) :=
  match tier1Step st now allowToken with
  | (true, st1) => .ok ({ allowed := true, mode := .once }, st1)
  | (false, st1) =>
    match getCookie cookieHeader sessionCookieName with
    | .error e => .error e
    | .ok sid =>
      match tier2Step st1 now sid with
      | (true, st2) => .ok ({ allowed := true, mode := .session }, st2)
      | (false, st2) =>
        match getCookie cookieHeader browserCookieName with
        | .error e => .error e
        | .ok bid =>
          match bid with
          | some b =>
            if b ≠ "" then
              match isAlwaysAllowed rootAllowed doc b with
              | .error e => .error e
              | .ok true => .ok ({ allowed := true, mode := .always }, st2)
              | .ok false => .ok ({ allowed := false, mode := .none }, st2)
            else .ok ({ allowed := false, mode := .none }, st2)
          | none => .ok ({ allowed := false, mode := .none }, st2)

/-- Outcome of the one-time-token tier on the initial ledger state. -/
def tierOnce (st : LedgerState) (now : Int) (allowToken : Option String) : Bool :=
  (tier1Step st now allowToken).1

/-- Outcome of the session tier on the initial ledger state, given the
decoded session cookie. -/
def tierSession (st : LedgerState) (now : Int) (sid : Option String) : Bool :=
  (tier2Step st now sid).1

/-- Outcome of the persistent tier, given the decoded browser cookie. -/
def tierAlways (doc : AllowDoc) (bid : Option String) : Bool :=
  match bid with
  | some b => b ≠ "" && isAlwaysAllowedDoc doc b
  | none => false

/-! ## Path sandbox (`paths.ts`)

POSIX paths are modelled as character lists; `path.resolve` performs no
filesystem I/O, so it is pure segment algebra.  `process.cwd()` is a
parameter of the model and is assumed absolute, as it always is. -/

/-- One step of Node's lexical path normalization: drop empty and `.`
segments, resolve `..` against the accumulated prefix (discarding it at the
root of an absolute path). -/
def normStep (acc : List (List Char)) (seg : List Char) : List (List Char) :=
  if seg = [] ∨ seg = ['.'] then acc
  else if seg = ['.', '.'] then acc.dropLast
  else acc ++ [seg]

/-- The normalized segment list of a path string. -/
def normSegsOf (cs : List Char) : List (List Char) :=
  (splitOnChar '/' cs).foldl normStep []

/-- Interleave path segments with the separator. -/
def joinSegs : List (List Char) → List Char
  | [] => []
  | [s] => s
  | s :: rest => s ++ '/' :: joinSegs rest

/-- `path.resolve(cwd, p)` for an absolute `cwd`: make absolute, then
normalize lexically. -/
def resolveAbs (cwd p : List Char) : List Char :=
  let full := if isPre ['/'] p then p else cwd ++ '/' :: p
  '/' :: joinSegs (normSegsOf full)

/-- `getDefaultRepoRoot`: `path.resolve(process.cwd(), '../..')`. -/
def getDefaultRepoRoot (cwd : List Char) : List Char :=
  resolveAbs cwd ('.' :: '.' :: '/' :: '.' :: '.' :: [])

/-- Order-preserving deduplication (the `seen` set of
`getAllowedRepoRoots`). -/
def dedupKeepFirst (l : List (List Char)) : List (List Char) :=
  l.foldl (fun acc x => if x ∈ acc then acc else acc ++ [x]) []

/-- `getAllowedRepoRoots`: the roots from `NOCTUNE_STUDIO_ALLOWED_ROOTS`
(comma-separated, trimmed, empties dropped, each resolved) followed by the
computed default root, deduplicated preserving order. -/
def getAllowedRepoRoots (cwd : List Char) (env : Option String) :
    List (List Char) :=
  let raw := trimChars (env.getD "").data
  let fromEnv :=
    if raw = [] then []
    else (((splitOnChar ',' raw).map trimChars).filter (· ≠ [])).map (resolveAbs cwd)
  dedupKeepFirst (fromEnv ++ [getDefaultRepoRoot cwd])

/-- `resolveRepoRootOrThrow`: resolve the candidate and accept iff it equals
an allowed root or extends one by the path separator (the code's
`rr === base || rr.startsWith(base + path.sep)` test); `none` models the
thrown not-allowed error. -/
def resolveRepoRootOrThrow (cwd : List Char) (env : Option String)
    (repoRoot : List Char) : Option (List Char) :=
  let rr := resolveAbs cwd repoRoot
  if (getAllowedRepoRoots cwd env).any
      (fun base => rr = base || isPre (base ++ ['/']) rr) then
    some rr
  else none

/-- The segment list of an (already normalized) absolute path. -/
def segsOf (p : List Char) : List (List Char) :=
  (splitOnChar '/' p).filter (· ≠ [])

/-- The specification's notion of containment: `d` equals `b` or is a
path-separator-bounded descendant of it — segment-wise, the segments of `b`
are a prefix of the segments of `d`. -/
def segDescendant (b d : List Char) : Prop :=
  segsOf b <+: segsOf d

/-! ## Filesystem model

A directory (or a run's whole subtree, keyed by root-relative path) is an
association list from file name to file content; names are unique as in a
real directory, and lookup is first-match.  Reading an absent name models a
thrown `ENOENT`, caught wherever the source catches it. -/

/-- A directory: file names with their contents. -/
def Dir : Type := List (String × String)

/-- `fs.readFile`, as an option. -/
def dirLookup (d : Dir) (name : String) : Option String :=
  (d.find? (fun p => p.fst = name)).map Prod.snd

/-- `fs.writeFile`: replace the named file's content, or create the file. -/
def dirWrite : Dir → String → String → Dir
  | [], name, content => [(name, content)]
  | (n, c) :: fs, name, content =>
    if n = name then (name, content) :: fs
    else (n, c) :: dirWrite fs name content

/-- `fs.readdir`. -/
def dirNames (d : Dir) : List String := d.map Prod.fst

/-- Insert into a sorted list (kernel of insertion sort). -/
def insSorted (le : α → α → Bool) (x : α) : List α → List α
  | [] => [x]
  | y :: ys => if le x y then x :: y :: ys else y :: insSorted le x ys

/-- Insertion sort; for the total orders used here it computes the same list
as JS `Array.prototype.sort` with the corresponding comparator. -/
def insSort (le : α → α → Bool) : List α → List α
  | [] => []
  | x :: xs => insSorted le x (insSort le xs)

/-- Lexicographic code-point order on character lists. -/
def listLeChars : List Char → List Char → Bool
  | [], _ => true
  | _ :: _, [] => false
  | a :: as, b :: bs => if a = b then listLeChars as bs else decide (a < b)

/-- JS default string sort order (code-point lexicographic; the file names
involved are ASCII, where this coincides with UTF-16 order). -/
def strLe (a b : String) : Bool := listLeChars a.data b.data

/-! ## Event tail (`tailNoctuneEvents`) -/

/-- Result of `tailNoctuneEvents`; `usedFallback` records which of the two
candidate log locations was read (`events/events.jsonl`, falling back to
`logs/events.jsonl` when the primary `stat` fails). -/
structure TailResult (α : Type) where
  events : List α
  cursor : Int
  nextCursor : Int
  usedFallback : Bool
deriving Repr

/-- `tailNoctuneEvents` (after the repo root has been validated; a disallowed
root throws and is covered by the path-sandbox analysis).  `raw1`/`raw2` are
the contents of the primary and fallback log locations; the line parser is a
parameter (instantiated with `jsonParse` for concrete logs).  Neither
location readable: the empty "does not exist yet" result.  Otherwise: split
into lines, drop empty lines, clamp the limit to 1–500, window the lines by
cursor (defaulting to the final `lim` lines), and independently parse each
window line, dropping failures. -/
def tailNoctuneEvents (parse : String → Option α) (raw1 raw2 : Option String)
    (cursor limit : Option Int) : TailResult α :=
  let usedFallback := raw1.isNone
  match (match raw1 with | some s => some s | none => raw2) with
  | none => { events := [], cursor := 0, nextCursor := 0, usedFallback }
  | some content =>
    let lines := ((splitOnChar '\n' content.data).map String.mk).filter (· ≠ "")
    let n : Int := lines.length
    let lim : Int := max 1 (min (limit.getD 200) 500)
    let start : Int :=
      match cursor with
      | none => max 0 (n - lim)
      | some c => max 0 (min c n)
    let endI : Int := min n (start + lim)
    let window := (lines.drop start.toNat).take (endI - start).toNat
    { events := window.filterMap parse, cursor := start, nextCursor := endI,
      usedFallback }

/-- The clamped window width of a `tail` call. -/
def tailLim (limit : Option Int) : Int := max 1 (min (limit.getD 200) 500)

/-- The event-log lines of a raw log content (split on newline, empty lines
dropped). -/
def tailLines (content : String) : List String :=
  ((splitOnChar '\n' content.data).map String.mk).filter (· ≠ "")

/-! ## Run controller: stop (`stopNoctuneRun`) -/

/-- Result of `stopNoctuneRun`. -/
structure StopResult where
  ok : Bool
  stopFlagPath : String
deriving Repr, DecidableEq

/-- Root-relative path of a run's stop sentinel. -/
def stopFlagPathOf (runId : String) : String :=
  ".noctune_cache/runs/" ++ runId ++ "/state/stop.flag"

/-- `stopNoctuneRun`: validate the root, require a nonempty trimmed run id,
write the `stop.flag` sentinel (directories created as needed), send the
best-effort SIGTERM — whose failure, `killFails`, is caught and ignored — and
report success with the flag path.  The repo tree is a flat `Dir` keyed by
root-relative path. -/
def stopNoctuneRun (rootAllowed : Bool) (d : Dir) (runId : String)
    (pid : Option Int) (killFails : Bool) : Except Unit (Dir × StopResult) :=
  if ¬rootAllowed then .error ()
  else
    let rid := jsTrim runId
    if rid = "" then .error ()
    else
      let p := stopFlagPathOf rid
      .ok (dirWrite d p "stop\n", { ok := true, stopFlagPath := p })

/-! ## Approval mailbox -/

/-- JS `String.prototype.endsWith`. -/
def endsWithStr (s suf : String) : Bool :=
  isPre suf.data.reverse s.data.reverse

/-- `name.replace(/\.json$/, '')` for a name ending in `.json`. -/
def stripJson (name : String) : String :=
  String.mk (name.data.take (name.data.length - 5))

/-- Contribution of one approvals-directory entry to `listPendingApprovals`:
`none` when the entry is not a request file, when the sibling decision file
exists (the sole pendingness test), or when the request fails to read or
parse. -/
def pendingItem (d : Dir) (name : String) : Option JVal :=
  if ¬ endsWithStr name ".json" then none
  else if (dirLookup d (stripJson name ++ ".decision")).isSome then none
  else
    match dirLookup d name with
    | some raw => jsonParse raw
    | none => none

/-- `listPendingApprovals`: a missing approvals directory is an empty result;
otherwise process the entries in sorted name order. -/
def listPendingApprovals (rootAllowed : Bool) (d : Option Dir) :
    Except Unit (List JVal) :=
  if ¬rootAllowed then .error ()
  else
    match d with
    | none => .ok []
    | some dir => .ok ((insSort strLe (dirNames dir)).filterMap (pendingItem dir))

/-- Result of `decideApproval`; `decisionPath` is kept root-relative like the
rest of the directory model. -/
structure DecideResult where
  ok : Bool
  decisionPath : String
deriving Repr, DecidableEq

/-- `JSON.stringify({ approved: Boolean(approved), reason: reason ?? '' })`
(the reasons this program writes need no string escaping). -/
def decisionContent (approved : Bool) (reason : Option String) : String :=
  "\x7b\"approved\":" ++ (if approved then "true" else "false")
    ++ ",\"reason\":\"" ++ reason.getD "" ++ "\"\x7d"

/-- `decideApproval`: validate the root, require a nonempty trimmed approval
id, create the approvals directory if missing, and write the decision file —
unconditionally on whether the request file was ever read. -/
def decideApproval (rootAllowed : Bool) (d : Option Dir) (approvalId : String)
    (approved : Bool) (reason : Option String) :
    Except Unit (Dir × DecideResult) :=
  if ¬rootAllowed then .error ()
  else
    let aid := jsTrim approvalId
    if aid = "" then .error ()
    else
      let dir := d.getD []
      let name := aid ++ ".decision"
      .ok (dirWrite dir name (decisionContent approved reason),
           { ok := true, decisionPath := name })

/-- One entry of `listApprovalsWithDecisions`. -/
structure ApprovalWithDecision where
  approval_id : String
  /-- `safeJsonParse` of the request file; `none` models the `null` recorded
  for an unreadable or unparsable request. -/
  approval : Option JVal
  decided : Bool
  /-- Parsed decision content; an unparsable (or JSON-`null`) decision file is
  wrapped as `{ raw: <trimmed content> }` by the `??` fallback. -/
  decision : Option JVal
deriving Repr

/-- Contribution of one approvals-directory entry to
`listApprovalsWithDecisions`. -/
def awdItem (d : Dir) (name : String) : Option ApprovalWithDecision :=
  if ¬ endsWithStr name ".json" then none
  else
    let aid := stripJson name
    let approval : Option JVal :=
      match dirLookup d name with
      | some raw => jsonParse raw
      | none => none
    match dirLookup d (aid ++ ".decision") with
    | some rawD =>
      let dec :=
        match jsonParse rawD with
        | some .jnull => JVal.jobj [("raw", .jstr (jsTrim rawD))]
        | some v => v
        | none => JVal.jobj [("raw", .jstr (jsTrim rawD))]
      some { approval_id := aid, approval := approval, decided := true,
             decision := some dec }
    | none =>
      some { approval_id := aid, approval := approval, decided := false,
             decision := none }

/-- `listApprovalsWithDecisions`: all request files in sorted name order, each
with its decision status inlined. -/
def listApprovalsWithDecisions (rootAllowed : Bool) (d : Option Dir) :
    Except Unit (List ApprovalWithDecision) :=
  if ¬rootAllowed then .error ()
  else
    match d with
    | none => .ok []
    | some dir => .ok ((insSort strLe (dirNames dir)).filterMap (awdItem dir))

/-! ## Run state reader -/

/-- Outcome of `process.kill(pid, 0)`: no error, "no such process", or any
other error (e.g. permission denied). -/
inductive KillOutcome where
  | ok : KillOutcome
  | esrch : KillOutcome
  | other : KillOutcome
deriving Repr, DecidableEq

/-- `pidExists`: a non-positive pid is dead; otherwise probe with signal 0 and
interpret only ESRCH as dead. -/
def pidExists (probe : Int → KillOutcome) (pid : Int) : Bool :=
  if pid = 0 ∨ pid ≤ 0 then false
  else
    match probe pid with
    | .esrch => false
    | _ => true

/-- Result of `readRunState`; `pidAlive` is `none` in the read-failure branch,
which omits the field. -/
structure RunStateResult where
  ok : Bool
  state : Option JVal
  pidAlive : Option Bool
deriving Repr

/-- `readRunState`, given the raw content of `state/run.json` (`none`: the
read threw).  A failed read yields `ok = false` with a null state; a
successful read is `ok = true` even when `safeJsonParse` maps unparsable
content (or a non-object value) to a null state. -/
def readRunState (rootAllowed : Bool) (probe : Int → KillOutcome)
    (raw : Option String) : Except Unit RunStateResult :=
  if ¬rootAllowed then .error ()
  else
    match raw with
    | none => .ok { ok := false, state := none, pidAlive := none }
    | some s =>
      let obj := jsonParse s
      let state : Option JVal :=
        match obj with
        | some v => if jsObjLike (some v) then some v else none
        | none => none
      let pid : Option Int :=
        match optGet state "pid" with
        | some (.jnum n) => some n
        | _ => none
      let alive :=
        match pid with
        | some n => if n ≠ 0 then pidExists probe n else false
        | none => false
      .ok { ok := true, state := state, pidAlive := some alive }

/-! ## Run listing (`listRuns`) -/

/-- `isoToMs` over the external `Date.parse` (the parameter `dateParse`;
`none` models NaN): non-strings, the empty string and unparsable strings give
epoch 0. -/
def isoToMs (dateParse : String → Option Int) : Option JVal → Int
  | some (.jstr s) => if s = "" then 0 else (dateParse s).getD 0
  | _ => 0

/-- One run record during `listRuns`, with its sort key. -/
structure SortRec where
  runId : String
  state : Option JVal
  sortMs : Int
deriving Repr

/-- The sort key `isoToMs(updated_at) || isoToMs(started_at) || 0`. -/
def sortMsOf (dateParse : String → Option Int) (state : Option JVal) : Int :=
  let a := isoToMs dateParse (optGet state "updated_at")
  if a ≠ 0 then a else isoToMs dateParse (optGet state "started_at")

/-- May `a` precede `b` under the `listRuns` comparator
`(a, b) => b.sortMs - a.sortMs || b.runId.localeCompare(a.runId)` (descending
recency, reverse-lexicographic run-id tiebreak; `localeCompare` on these
ASCII ids coincides with code-point order)? -/
def runLeB (a b : SortRec) : Bool :=
  if a.sortMs = b.sortMs then strLe b.runId a.runId
  else decide (b.sortMs < a.sortMs)

/-- Output entry of `listRuns`. -/
structure RunEntry where
  runId : String
  state : Option JVal
deriving Repr

/-- The pre-sort records of `listRuns`: skip empty and dot-names, read each
run's state, attach the sort key. -/
def listRunRecs (dateParse : String → Option Int) (probe : Int → KillOutcome)
    (es : List (String × Option String)) : List SortRec :=
  es.filterMap (fun e =>
    if e.fst = "" || isPre ['.'] e.fst.data then none
    else
      let st :=
        match readRunState true probe e.snd with
        | .ok r => r.state
        | .error _ => none
      some { runId := e.fst, state := st, sortMs := sortMsOf dateParse st })

/-- `listRuns`: enumerate the runs directory (`none`: `readdir` threw, an
empty result), read each run's state, sort by descending recency with
reverse-lexicographic tiebreak, clamp the limit to 1–200 (default 50). -/
def listRuns (rootAllowed : Bool) (dateParse : String → Option Int)
    (probe : Int → KillOutcome)
    (entries : Option (List (String × Option String))) (limit : Option Int) :
    Except Unit (List RunEntry) :=
  if ¬rootAllowed then .error ()
  else
    match entries with
    | none => .ok []
    | some es =>
      let sorted := insSort runLeB (listRunRecs dateParse probe es)
      let lim : Int := max 1 (min (limit.getD 50) 200)
      .ok ((sorted.take lim.toNat).map (fun r => { runId := r.runId, state := r.state }))

/-- The clamped limit of a `listRuns` call. -/
def listLim (limit : Option Int) : Int := max 1 (min (limit.getD 50) 200)

/-! ## Basic lemmas about the filesystem and map models -/

theorem dirLookup_dirWrite_self (d : Dir) (n c : String) :
    dirLookup (dirWrite d n c) n = some c := by
  induction d with
  | nil => simp [dirWrite, dirLookup]
  | cons hd tl ih =>
    obtain ⟨m, x⟩ := hd
    by_cases h : m = n
    · subst h
      simp [dirWrite, dirLookup]
    · simp only [dirWrite, if_neg h]
      simpa [dirLookup, List.find?, h] using ih

theorem dirLookup_dirWrite_ne (d : Dir) (n n' c : String) (h : n' ≠ n) :
    dirLookup (dirWrite d n c) n' = dirLookup d n' := by
  induction d with
  | nil => simp [dirWrite, dirLookup, List.find?, h, Ne.symm h]
  | cons hd tl ih =>
    obtain ⟨m, x⟩ := hd
    by_cases hm : m = n
    · subst hm
      simp [dirWrite, dirLookup, List.find?, h, Ne.symm h]
    · by_cases hm' : m = n'
      · subst hm'
        simp [dirWrite, if_neg hm, dirLookup, List.find?]
      · simp only [dirWrite, if_neg hm]
        simpa [dirLookup, List.find?, hm'] using ih

theorem dirWrite_idem (d : Dir) (n c : String) :
    dirWrite (dirWrite d n c) n c = dirWrite d n c := by
  induction d with
  | nil => simp [dirWrite]
  | cons hd tl ih =>
    obtain ⟨m, x⟩ := hd
    by_cases h : m = n
    · subst h
      simp [dirWrite]
    · simp [dirWrite, if_neg h, ih]

/-! ## C2: one-time tokens are consumed exactly once -/

/-- **C2.** For every issued one-time token (one present in the store with
expiry `exp`): the first `consumeOnce` removes the token from the store
regardless of expiry and returns true iff the token is unexpired at that
moment (`now ≤ exp`); a second `consumeOnce` of the same token, at any later
moment, always returns false. -/
theorem consumeOnce_twice (st : LedgerState) (token : String)
    (now now' exp : Int) (h : st.once token = some exp) :
    (consumeOnceToken st now token).1 = decide (now ≤ exp) ∧
    ((consumeOnceToken st now token).2).once token = none ∧
    (consumeOnceToken (consumeOnceToken st now token).2 now' token).1 = false := by
  refine ⟨?_, ?_, ?_⟩ <;> simp [consumeOnceToken, h, mapDel, Int.not_lt] <;>
    by_cases hc : now ≤ exp <;> simp [hc, Int.not_le] <;> omega

/-- Witness for C2 at a concrete issued token: issue `"t"` at time 0 with the
default TTL, then consume it twice at times 5 and 99. -/
theorem consumeOnce_twice_witness :
    (consumeOnceToken ((issueOnceToken ⟨fun _ => .none, fun _ => .none⟩
        "t" 0 defaultOnceTtlMs).1) 5 "t").1 = decide ((5 : Int) ≤ 120000) ∧
    ((consumeOnceToken ((issueOnceToken ⟨fun _ => .none, fun _ => .none⟩
        "t" 0 defaultOnceTtlMs).1) 5 "t").2).once "t" = none ∧
    (consumeOnceToken (consumeOnceToken ((issueOnceToken
        ⟨fun _ => .none, fun _ => .none⟩ "t" 0 defaultOnceTtlMs).1) 5 "t").2
        99 "t").1 = false :=
  consumeOnce_twice _ "t" 5 99 120000 (by decide)

/-! ## C9: stop is idempotent -/

/-- **C9.** With a validated root and a nonempty (after trimming) run id,
stopping a run twice is idempotent: both calls succeed with `ok = true` and
the same stop-flag path, the sentinel file holds the same content
(`"stop\n"`) after each call, the second call returns the directory tree
unchanged, and the outcome is the same whether or not the optional
termination signal to a supplied pid fails (the failure is swallowed). -/
theorem stop_twice_idempotent (d : Dir) (runId : String)
    (pid pid' : Option Int) (kf kf' : Bool) (h : jsTrim runId ≠ "") :
    ∃ d1 r, stopNoctuneRun true d runId pid kf = .ok (d1, r) ∧
      r.ok = true ∧ r.stopFlagPath = stopFlagPathOf (jsTrim runId) ∧
      dirLookup d1 r.stopFlagPath = some "stop\n" ∧
      stopNoctuneRun true d1 runId pid' kf' = .ok (d1, r) := by
  refine ⟨dirWrite d (stopFlagPathOf (jsTrim runId)) "stop\n",
    { ok := true, stopFlagPath := stopFlagPathOf (jsTrim runId) }, ?_, rfl, rfl,
    ?_, ?_⟩
  · simp [stopNoctuneRun, h]
  · exact dirLookup_dirWrite_self _ _ _
  · simp [stopNoctuneRun, h, dirWrite_idem]

/-- Witness for C9: stop the run `" r1 "` (trimming to `"r1"`) twice in an
empty tree, first with a pid whose signalling fails, then without a pid. -/
theorem stop_twice_idempotent_witness :
    jsTrim " r1 " ≠ "" ∧
    ∃ d1 r, stopNoctuneRun true [] " r1 " (some 42) true = .ok (d1, r) ∧
      r.ok = true ∧ r.stopFlagPath = stopFlagPathOf (jsTrim " r1 ") ∧
      dirLookup d1 r.stopFlagPath = some "stop\n" ∧
      stopNoctuneRun true d1 " r1 " Option.none false = .ok (d1, r) :=
  ⟨by decide, stop_twice_idempotent [] " r1 " (some 42) Option.none true false
    (by decide)⟩

/-! ## C6: missing or unparsable run state -/

/-- **C6 counterexample.** With the state record file present but holding
unparsable JSON (content `"{"`), `readRunState` returns `ok = true` (with a
null state) — not the `ok = false` the claim asserts for unparsable
content. -/
theorem readRunState_unparsable_counterexample :
    readRunState true (fun _ => .ok) (some "\x7b") =
      .ok { ok := true, state := none, pidAlive := some false } := by
  rfl

/-- **C6 (amended).** With a validated root, `readRunState` never surfaces an
exception; a missing state file yields `ok = false` with a null state; a
present but unparsable file yields a null state but `ok = true`. -/
theorem readRunState_missing_or_unparsable (probe : Int → KillOutcome)
    (raw : Option String) :
    (∃ r, readRunState true probe raw = .ok r) ∧
    readRunState true probe none =
      .ok { ok := false, state := none, pidAlive := none } ∧
    (∀ s, raw = some s → jsonParse s = none →
      readRunState true probe raw =
        .ok { ok := true, state := none, pidAlive := some false }) := by
  refine ⟨?_, rfl, ?_⟩
  · cases raw <;> exact ⟨_, rfl⟩
  · rintro s rfl hp
    simp [readRunState, hp, optGet]

/-- Witness for C6 (amended) at the unparsable content `"not json"`. -/
theorem readRunState_missing_or_unparsable_witness :
    jsonParse "not json" = none ∧
    readRunState true (fun _ => .esrch) (some "not json") =
      .ok { ok := true, state := none, pidAlive := some false } :=
  ⟨by rfl, (readRunState_missing_or_unparsable (fun _ => .esrch)
    (some "not json")).2.2 "not json" rfl (by rfl)⟩

/-! ## C4: cursorless tail returns the most recent lines -/

/-- The no-cursor window equals the final `lim` lines. -/
theorem window_no_cursor (L : List String) (lim : Int) (h1 : 1 ≤ lim) :
    (L.drop (max 0 ((L.length : Int) - lim)).toNat).take
      ((min (L.length : Int) ((max 0 ((L.length : Int) - lim)) + lim))
        - (max 0 ((L.length : Int) - lim))).toNat
      = L.drop (L.length - lim.toNat) := by
  have hstart : (max 0 ((L.length : Int) - lim)).toNat = L.length - lim.toNat := by
    omega
  have hlen : ((min (L.length : Int) ((max 0 ((L.length : Int) - lim)) + lim))
      - (max 0 ((L.length : Int) - lim))).toNat
      = L.length - (L.length - lim.toNat) := by omega
  rw [hstart, hlen, ← List.length_drop]
  exact List.take_length _

/-- **C4.** With no cursor supplied, `tail` returns the most recent `lim`
lines of the log (`lim` the clamped limit): the events are the parse results
of the lines from index `length − lim` on (not from the beginning), the
returned cursor is that start index, and `nextCursor` is the total line
count.  In particular, on the log holding exactly the three lines
`{"i":0}`, `{"i":1}`, `{"i":2}` with `limit = 2`, the call returns events
`[{"i":1}, {"i":2}]` with `cursor = 1` and `nextCursor = 3`, and a subsequent
call with `cursor = 3` returns no events and `nextCursor = 3`. -/
theorem tail_no_cursor {α : Type} (parse : String → Option α)
    (content : String) (raw2 : Option String) (limit : Option Int) :
    tailNoctuneEvents parse (some content) raw2 none limit =
      { events := ((tailLines content).drop
          ((tailLines content).length - (tailLim limit).toNat)).filterMap parse,
        cursor := max 0 (((tailLines content).length : Int) - tailLim limit),
        nextCursor := ((tailLines content).length : Int),
        usedFallback := false } ∧
    tailNoctuneEvents jsonParse (some "\x7b\"i\":0\x7d\n\x7b\"i\":1\x7d\n\x7b\"i\":2\x7d\n")
        none none (some 2) =
      { events := [.jobj [("i", .jnum 1)], .jobj [("i", .jnum 2)]],
        cursor := 1, nextCursor := 3, usedFallback := false } ∧
    tailNoctuneEvents jsonParse (some "\x7b\"i\":0\x7d\n\x7b\"i\":1\x7d\n\x7b\"i\":2\x7d\n")
        none (some 3) (some 2) =
      { events := [], cursor := 3, nextCursor := 3, usedFallback := false } := by
  refine ⟨?_, rfl, rfl⟩
  have h1 : 1 ≤ tailLim limit := le_max_left _ _
  simp only [tailNoctuneEvents, tailLines, tailLim] at *
  rw [TailResult.mk.injEq]
  refine ⟨?_, rfl, ?_, rfl⟩
  · rw [window_no_cursor _ _ h1]
  · omega

/-! ## C5: unparsable lines are dropped, but occupy window slots -/

/-- **C5 (amended).** For every log content and cursor/limit pair, `tail`
parses each line of its window independently, dropping a line that fails to
parse silently and without aborting the batch — the returned events are
exactly `filterMap parse` of the window, so the remaining parseable lines of
the batch are still returned, in order — and at most `lim` events are
returned.  However, the window consists of `lim` *lines*, so an unparsable
line does occupy a slot counted against the limit, and fewer than `lim`
parseable events can be returned even when further parseable lines exist in
the log. -/
theorem tail_drops_unparsable {α : Type} (parse : String → Option α)
    (content : String) (raw2 : Option String) (cursor limit : Option Int) :
    ∃ start : Int, 0 ≤ start ∧ start ≤ ((tailLines content).length : Int) ∧
      (tailNoctuneEvents parse (some content) raw2 cursor limit).events =
        (((tailLines content).drop start.toNat).take
          (tailLim limit).toNat).filterMap parse ∧
      (tailNoctuneEvents parse (some content) raw2 cursor limit).events.length
        ≤ (tailLim limit).toNat := by
  have h1 : 1 ≤ tailLim limit := le_max_left _ _
  refine ⟨(match cursor with
    | none => max 0 (((tailLines content).length : Int) - tailLim limit)
    | some c => max 0 (min c ((tailLines content).length : Int))), ?_, ?_, ?_, ?_⟩
  · cases cursor <;> simp
  · cases cursor <;> simp <;> omega
  · simp only [tailNoctuneEvents, tailLines, tailLim] at *
    cases cursor <;>
    · congr 1
      rw [List.take_eq_take]
      simp [List.length_drop]
      omega
  · simp only [tailNoctuneEvents, tailLines, tailLim] at *
    cases cursor <;>
    · refine le_trans (List.length_filterMap_le _ _) ?_
      refine le_trans (List.length_take_le _ _) ?_
      omega

/-! ## C1: permission tiers are tried in strict order -/

theorem consumeOnceToken_sessions (st : LedgerState) (now : Int) (t : String) :
    ((consumeOnceToken st now t).2).sessions = st.sessions := by
  unfold consumeOnceToken
  cases h : st.once t <;> simp [h]

theorem isSessionAllowed_fst_eq (st st' : LedgerState)
    (h : st.sessions = st'.sessions) (now : Int) (s : String) :
    (isSessionAllowed st now s).1 = (isSessionAllowed st' now s).1 := by
  unfold isSessionAllowed
  rw [h]
  cases hx : st'.sessions s
  · rfl
  · dsimp only
    split_ifs <;> rfl

theorem tier1Step_sessions (st : LedgerState) (now : Int) (tok : Option String) :
    ((tier1Step st now tok).2).sessions = st.sessions := by
  unfold tier1Step
  rcases tok with _ | t
  · rfl
  · by_cases ht : t = "" <;> simp [ht, consumeOnceToken_sessions]

theorem tier2Step_fst_eq (st st' : LedgerState)
    (h : st.sessions = st'.sessions) (now : Int) (sid : Option String) :
    (tier2Step st now sid).1 = (tier2Step st' now sid).1 := by
  unfold tier2Step
  rcases sid with _ | s
  · rfl
  · by_cases hs : s = "" <;> simp [hs, isSessionAllowed_fst_eq st st' h]

/-- **C1.** For every authorization request whose cookies decode (to session
id `sid` and browser id `bid`) against a validated root, `computeAllowWrite`
tries the three grant tiers in strict order — one-time token first, then
session grant, then persistent grant — short-circuiting on the first matching
tier and returning `allowed = true` with that tier's mode; when no tier
matches it returns `allowed = false` with mode `none`.  The tier outcomes on
the right-hand side are all evaluated against the initial ledger state, so
the statement is exactly the claimed precedence. -/
theorem computeAllowWrite_tiers (doc : AllowDoc) (st : LedgerState) (now : Int)
    (tok hdr sid bid : Option String)
    (hsid : getCookie hdr sessionCookieName = .ok sid)
    (hbid : getCookie hdr browserCookieName = .ok bid) :
    ∃ st', computeAllowWrite true doc st now tok hdr = .ok
      ((if tierOnce st now tok then { allowed := true, mode := .once }
        else if tierSession st now sid then { allowed := true, mode := .session }
        else if tierAlways doc bid then { allowed := true, mode := .always }
        else { allowed := false, mode := Mode.none }), st') := by
  unfold computeAllowWrite
  have h1 : tier1Step st now tok
      = (tierOnce st now tok, (tier1Step st now tok).2) := by
    simp [tierOnce]
  rw [h1, hsid]
  cases htier1 : tierOnce st now tok
  · simp only []
    have h2 : tier2Step (tier1Step st now tok).2 now sid =
        (tierSession st now sid, (tier2Step (tier1Step st now tok).2 now sid).2) := by
      rw [tierSession, ← tier2Step_fst_eq _ _ (tier1Step_sessions st now tok)]
    rw [h2, hbid]
    cases htier2 : tierSession st now sid
    · simp only []
      rcases bid with _ | b
      · exact ⟨(tier2Step (tier1Step st now tok).2 now sid).2,
          by simp [tierAlways]⟩
      · by_cases hb : b = ""
        · subst hb
          exact ⟨(tier2Step (tier1Step st now tok).2 now sid).2,
            by simp [tierAlways]⟩
        · simp only [hb, isAlwaysAllowed, if_neg, ite_true]
          cases ha : isAlwaysAllowedDoc doc b
          · exact ⟨(tier2Step (tier1Step st now tok).2 now sid).2,
              by simp [tierAlways, hb, ha]⟩
          · exact ⟨(tier2Step (tier1Step st now tok).2 now sid).2,
              by simp [tierAlways, hb, ha]⟩
    · exact ⟨(tier2Step (tier1Step st now tok).2 now sid).2, by simp⟩
  · exact ⟨(tier1Step st now tok).2, by simp⟩

/-- Witness for C1: no token, no session cookie, a persistent grant for the
browser-cookie identity — evaluation falls through to the persistent tier and
reports mode `always`. -/
theorem computeAllowWrite_tiers_witness :
    ∃ st', computeAllowWrite true
        (some (some (.jobj [("browsers", .jobj [("b1", grantRec "2024")])])))
        ⟨fun _ => Option.none, fun _ => Option.none⟩ 5 Option.none
        (some "noctune_studio_browser_id=b1") =
      .ok ({ allowed := true, mode := .always }, st') := by
  obtain ⟨st', h⟩ := computeAllowWrite_tiers
    (some (some (.jobj [("browsers", .jobj [("b1", grantRec "2024")])])))
    ⟨fun _ => Option.none, fun _ => Option.none⟩ 5 Option.none
    (some "noctune_studio_browser_id=b1") Option.none (some "b1")
    (by rfl) (by rfl)
  refine ⟨st', ?_⟩
  rw [h]
  rfl

/-! ## C8: pendingness is the absence of the decision file -/

/-- **C8.** (1) `decide` writes exactly the correspondingly named decision
file: it succeeds, reports the decision path, the file then holds the encoded
decision, and every other file is untouched.  (2) For a request file that
reads and parses, its parse is pending iff the correspondingly named decision
file is absent.  (3) Every request file yields a `listWithDecisions` entry
whose `decided` flag is exactly the existence of the decision file.  (4) The
concrete scenario: with `a1.json` present and no `a1.decision`, `listPending`
includes `a1`; after `decide(a1, approved := true)`, `listPending` no longer
includes it and `listWithDecisions` reports it decided with
`approved = true`. -/
theorem approvals_pending_decide :
    (∀ (dir : Dir) (aid : String) (approved : Bool) (reason : Option String),
      jsTrim aid ≠ "" →
      ∃ dir' r, decideApproval true (some dir) aid approved reason = .ok (dir', r) ∧
        r.ok = true ∧ r.decisionPath = jsTrim aid ++ ".decision" ∧
        dirLookup dir' (jsTrim aid ++ ".decision")
          = some (decisionContent approved reason) ∧
        ∀ n, n ≠ jsTrim aid ++ ".decision" → dirLookup dir' n = dirLookup dir n) ∧
    (∀ (dir : Dir) (name raw : String) (v : JVal),
      endsWithStr name ".json" = true → dirLookup dir name = some raw →
      jsonParse raw = some v →
      (pendingItem dir name = some v ↔
        dirLookup dir (stripJson name ++ ".decision") = none)) ∧
    (∀ (dir : Dir) (name : String), endsWithStr name ".json" = true →
      ∃ e, awdItem dir name = some e ∧ e.approval_id = stripJson name ∧
        e.decided = (dirLookup dir (stripJson name ++ ".decision")).isSome) ∧
    (listPendingApprovals true (some [("a1.json", "\x7b\"cmd\":\"rm\"\x7d")])
       = .ok [.jobj [("cmd", .jstr "rm")]] ∧
     decideApproval true (some [("a1.json", "\x7b\"cmd\":\"rm\"\x7d")]) "a1" true
         Option.none
       = .ok ([("a1.json", "\x7b\"cmd\":\"rm\"\x7d"),
               ("a1.decision", "\x7b\"approved\":true,\"reason\":\"\"\x7d")],
              { ok := true, decisionPath := "a1.decision" }) ∧
     listPendingApprovals true (some [("a1.json", "\x7b\"cmd\":\"rm\"\x7d"),
               ("a1.decision", "\x7b\"approved\":true,\"reason\":\"\"\x7d")]) = .ok [] ∧
     listApprovalsWithDecisions true (some [("a1.json", "\x7b\"cmd\":\"rm\"\x7d"),
               ("a1.decision", "\x7b\"approved\":true,\"reason\":\"\"\x7d")])
       = .ok [{ approval_id := "a1",
                approval := some (.jobj [("cmd", .jstr "rm")]),
                decided := true,
                decision := some (.jobj [("approved", .jbool true),
                                         ("reason", .jstr "")]) }]) := by
  refine ⟨?_, ?_, ?_, rfl, rfl, rfl, rfl⟩
  · intro dir aid approved reason h
    refine ⟨dirWrite dir (jsTrim aid ++ ".decision")
        (decisionContent approved reason),
      { ok := true, decisionPath := jsTrim aid ++ ".decision" }, ?_, rfl, rfl,
      dirLookup_dirWrite_self _ _ _, fun n hn => dirLookup_dirWrite_ne _ _ _ _ hn⟩
    simp [decideApproval, h]
  · intro dir name raw v hend hread hparse
    constructor
    · intro hp
      by_contra hdec
      simp only [pendingItem, hend, Bool.not_true, if_neg, ite_not] at hp
      rcases hx : dirLookup dir (stripJson name ++ ".decision") with _ | c
      · exact hdec hx
      · simp [hx] at hp
    · intro hdec
      simp [pendingItem, hend, hdec, hread, hparse]
  · intro dir name hend
    rcases hx : dirLookup dir (stripJson name ++ ".decision") with _ | c
    · exact ⟨{ approval_id := stripJson name,
               approval := match dirLookup dir name with
                 | some raw => jsonParse raw
                 | none => none,
               decided := false, decision := none },
             by simp [awdItem, hend, hx], rfl, by simp [hx]⟩
    · exact ⟨{ approval_id := stripJson name,
               approval := match dirLookup dir name with
                 | some raw => jsonParse raw
                 | none => none,
               decided := true,
               decision := some (match jsonParse c with
                 | some .jnull => JVal.jobj [("raw", .jstr (jsTrim c))]
                 | some v => v
                 | none => JVal.jobj [("raw", .jstr (jsTrim c))]) },
             by simp [awdItem, hend, hx], rfl, by simp [hx]⟩

/-- Witness for C8 at concrete inputs: decide in an empty directory, a
pending request, and an undecided `listWithDecisions` entry. -/
theorem approvals_pending_decide_witness :
    (∃ dir' r, decideApproval true (some []) "a1" false (some "nope")
        = .ok (dir', r) ∧ r.ok = true) ∧
    pendingItem [("a1.json", "\x7b\"cmd\":\"rm\"\x7d")] "a1.json"
        = some (.jobj [("cmd", .jstr "rm")]) ∧
    (∃ e, awdItem [("a1.json", "\x7b\"cmd\":\"rm\"\x7d")] "a1.json" = some e ∧
        e.decided = false) := by
  refine ⟨?_, ?_, ?_⟩
  · obtain ⟨dir', r, h1, h2, -⟩ :=
      approvals_pending_decide.1 [] "a1" false (some "nope") (by decide)
    exact ⟨dir', r, h1, h2⟩
  · exact (approvals_pending_decide.2.1 [("a1.json", "\x7b\"cmd\":\"rm\"\x7d")]
      "a1.json" "\x7b\"cmd\":\"rm\"\x7d" (.jobj [("cmd", .jstr "rm")])
      (by rfl) (by rfl) (by rfl)).mpr (by rfl)
  · obtain ⟨e, he, -, hd⟩ :=
      approvals_pending_decide.2.2.1 [("a1.json", "\x7b\"cmd\":\"rm\"\x7d")]
        "a1.json" (by rfl)
    exact ⟨e, he, by rw [hd]; rfl⟩

/-- **C5 counterexample.** On the two-line log `"x\n{\"i\":7}\n"` with
`cursor = 0` and `limit = 1`: the log contains exactly one parseable line at
or after the cursor and the limit is 1, yet zero events are returned — the
unparsable first line occupied the single window slot, i.e. it was counted
toward the limit, so fewer than `limit` parseable events were returned from
the log. -/
theorem tail_unparsable_counts_counterexample :
    (tailNoctuneEvents jsonParse (some "x\n\x7b\"i\":7\x7d\n") none
      (some 0) (some 1)).events = [] ∧
    ((tailLines "x\n\x7b\"i\":7\x7d\n").filter
      (fun s => (jsonParse s).isSome)).length = 1 ∧
    tailLim (some 1) = 1 :=
  ⟨rfl, rfl, rfl⟩

/-! ## C7: run listing order and clamping -/

theorem insSorted_perm (le : α → α → Bool) (x : α) (l : List α) :
    (insSorted le x l).Perm (x :: l) := by
  induction l with
  | nil => simp [insSorted]
  | cons y ys ih =>
    cases h : le x y with
    | true => simp [insSorted, h]
    | false =>
      simp only [insSorted, h]
      rw [if_neg (by simp)]
      exact (ih.cons y).trans (List.Perm.swap x y ys)

theorem insSort_perm (le : α → α → Bool) (l : List α) :
    (insSort le l).Perm l := by
  induction l with
  | nil => simp [insSort]
  | cons x xs ih =>
    exact (insSorted_perm le x (insSort le xs)).trans (ih.cons x)

theorem insSorted_pairwise (le : α → α → Bool)
    (htot : ∀ a b, le a b = true ∨ le b a = true)
    (htrans : ∀ a b c, le a b = true → le b c = true → le a c = true)
    (x : α) (l : List α) (h : l.Pairwise (le · · = true)) :
    (insSorted le x l).Pairwise (le · · = true) := by
  induction l with
  | nil => simp [insSorted]
  | cons y ys ih =>
    rcases List.pairwise_cons.mp h with ⟨hy, hys⟩
    cases hxy : le x y with
    | true =>
      simp only [insSorted, hxy, if_pos]
      refine List.pairwise_cons.mpr ⟨?_, h⟩
      intro b hb
      rcases List.mem_cons.mp hb with rfl | hb
      · exact hxy
      · exact htrans x y b hxy (hy _ hb)
    | false =>
      simp only [insSorted, hxy]
      rw [if_neg (by simp)]
      refine List.pairwise_cons.mpr ⟨?_, ih hys⟩
      intro b hb
      have hmem := (insSorted_perm le x ys).mem_iff.mp hb
      rcases List.mem_cons.mp hmem with h' | hmem
      · rw [h']
        rcases htot x y with hx | hx
        · rw [hx] at hxy; cases hxy
        · exact hx
      · exact hy _ hmem

theorem insSort_pairwise (le : α → α → Bool)
    (htot : ∀ a b, le a b = true ∨ le b a = true)
    (htrans : ∀ a b c, le a b = true → le b c = true → le a c = true)
    (l : List α) : (insSort le l).Pairwise (le · · = true) := by
  induction l with
  | nil => simp [insSort]
  | cons x xs ih => exact insSorted_pairwise le htot htrans x _ ih

theorem listLeChars_total (a b : List Char) :
    listLeChars a b = true ∨ listLeChars b a = true := by
  induction a generalizing b with
  | nil => left; rfl
  | cons x xs ih =>
    cases b with
    | nil => right; rfl
    | cons y ys =>
      by_cases hxy : x = y
      · subst hxy
        simpa [listLeChars] using ih ys
      · rcases lt_or_gt_of_ne hxy with h | h
        · left; simp [listLeChars, hxy, h]
        · right; simp [listLeChars, Ne.symm hxy, h]

theorem listLeChars_trans (a b c : List Char) (h1 : listLeChars a b = true)
    (h2 : listLeChars b c = true) : listLeChars a c = true := by
  induction a generalizing b c with
  | nil => rfl
  | cons x xs ih =>
    cases b with
    | nil => simp [listLeChars] at h1
    | cons y ys =>
      cases c with
      | nil => simp [listLeChars] at h2
      | cons z zs =>
        by_cases hxy : x = y <;> by_cases hyz : y = z
        · subst hxy; subst hyz
          simp only [listLeChars, if_pos rfl] at h1 h2 ⊢
          exact ih ys zs h1 h2
        · subst hxy
          simpa [listLeChars, hyz] using h2
        · subst hyz
          simpa [listLeChars, hxy] using h1
        · simp only [listLeChars, hxy, hyz, if_neg] at h1 h2
          have hx : x < y := by simpa using h1
          have hy : y < z := by simpa using h2
          have hxz : x < z := lt_trans hx hy
          simp [listLeChars, ne_of_lt hxz, hxz]

theorem listLeChars_refl (a : List Char) : listLeChars a a = true := by
  induction a with
  | nil => rfl
  | cons x xs ih => simpa [listLeChars] using ih



theorem runLeB_total (a b : SortRec) : runLeB a b = true ∨ runLeB b a = true := by
  unfold runLeB strLe
  by_cases h : a.sortMs = b.sortMs
  · simp [h]
    exact listLeChars_total _ _
  · simp only [if_neg h, if_neg (Ne.symm h), decide_eq_true_eq]
    omega

theorem runLeB_trans (a b c : SortRec) (h1 : runLeB a b = true)
    (h2 : runLeB b c = true) : runLeB a c = true := by
  unfold runLeB strLe at *
  by_cases hab : a.sortMs = b.sortMs <;> by_cases hbc : b.sortMs = c.sortMs
  · have hac : a.sortMs = c.sortMs := hab.trans hbc
    rw [if_pos hab] at h1
    rw [if_pos hbc] at h2
    rw [if_pos hac]
    exact listLeChars_trans _ _ _ h2 h1
  · have hac : a.sortMs ≠ c.sortMs := by rw [hab]; exact hbc
    rw [if_neg hbc, decide_eq_true_eq] at h2
    rw [if_neg hac, decide_eq_true_eq]
    omega
  · have hac : a.sortMs ≠ c.sortMs := by rw [← hbc]; exact hab
    rw [if_neg hab, decide_eq_true_eq] at h1
    rw [if_neg hac, decide_eq_true_eq]
    omega
  · rw [if_neg hab, decide_eq_true_eq] at h1
    rw [if_neg hbc, decide_eq_true_eq] at h2
    have hac : a.sortMs ≠ c.sortMs := by omega
    rw [if_neg hac, decide_eq_true_eq]
    omega

theorem runLeB_refl (a : SortRec) : runLeB a a = true := by
  unfold runLeB strLe
  simp [listLeChars_refl]

theorem listRunRecs_key (dp : String → Option Int) (probe : Int → KillOutcome)
    (es : List (String × Option String)) :
    ∀ r ∈ listRunRecs dp probe es, r.sortMs = sortMsOf dp r.state := by
  intro r hr
  rcases List.mem_filterMap.mp hr with ⟨e, _, hsome⟩
  by_cases hskip : e.fst = "" || isPre ['.'] e.fst.data
  · simp [hskip] at hsome
  · simp only [hskip, if_neg, Bool.false_eq_true, not_false_iff] at hsome
    rw [← Option.some_inj.mp hsome]



/-- **C7 (amended).** `list` sorts the runs descending by `updated_at`,
falling back to `started_at` when `updated_at` is absent, unparsable, or
parses to epoch zero (`sortMsOf`: unparsable or absent timestamps sort as
epoch zero), breaks equal-key ties by reverse-lexicographic run-id order, and
clamps the limit to the range 1-200; with `limit = 1` over a nonempty runs
directory it returns exactly one run, maximal under that order (so, over runs
with distinct nonzero `updated_at` keys, the single most recently updated
one). -/
theorem listRuns_sorted (dp : String → Option Int) (probe : Int → KillOutcome)
    (es : List (String × Option String)) (limit : Option Int) :
    ∃ out, listRuns true dp probe (some es) limit = .ok out ∧
      out.Pairwise (fun x y => sortMsOf dp y.state < sortMsOf dp x.state ∨
        (sortMsOf dp x.state = sortMsOf dp y.state ∧
          strLe y.runId x.runId = true)) ∧
      out.length ≤ (listLim limit).toNat ∧
      1 ≤ listLim limit ∧ listLim limit ≤ 200 ∧
      (∀ e ∈ out, ∃ r ∈ listRunRecs dp probe es,
        e.runId = r.runId ∧ e.state = r.state) ∧
      (limit = some 1 → listRunRecs dp probe es ≠ [] →
        ∃ h, out = [⟨h.runId, h.state⟩] ∧ h ∈ listRunRecs dp probe es ∧
          ∀ r ∈ listRunRecs dp probe es, runLeB h r = true) := by
  have hperm := insSort_perm runLeB (listRunRecs dp probe es)
  have hpair := insSort_pairwise runLeB runLeB_total runLeB_trans
    (listRunRecs dp probe es)
  have hkeys : ∀ r ∈ insSort runLeB (listRunRecs dp probe es),
      r.sortMs = sortMsOf dp r.state :=
    fun r hr => listRunRecs_key dp probe es r (hperm.mem_iff.mp hr)
  refine ⟨_, rfl,
      ?_, ?_, le_max_left _ _, ?_, ?_, ?_⟩
  · -- pairwise order on the output
    have hpair2 : (insSort runLeB (listRunRecs dp probe es)).Pairwise
        (fun x y => sortMsOf dp y.state < sortMsOf dp x.state ∨
          (sortMsOf dp x.state = sortMsOf dp y.state ∧
            strLe y.runId x.runId = true)) := by
      refine hpair.imp_of_mem ?_
      intro a b ha hb hab
      unfold runLeB strLe at hab
      rw [hkeys a ha, hkeys b hb] at hab
      by_cases hk : sortMsOf dp a.state = sortMsOf dp b.state
      · rw [if_pos hk] at hab
        exact Or.inr ⟨hk, hab⟩
      · rw [if_neg hk, decide_eq_true_eq] at hab
        exact Or.inl hab
    have htake := List.Pairwise.sublist
      (List.take_sublist (listLim limit).toNat
        (insSort runLeB (listRunRecs dp probe es))) hpair2
    exact List.pairwise_map.mpr htake
  · simp only [List.length_map]
    exact le_trans (List.length_take_le _ _) (le_refl _)
  · have h1 : (limit.getD 50) ≤ 200 ∨ True := Or.inr trivial
    unfold listLim
    omega
  · intro e he
    rcases List.mem_map.mp he with ⟨r, hr, rfl⟩
    exact ⟨r, hperm.mem_iff.mp (List.mem_of_mem_take hr), rfl, rfl⟩
  · rintro rfl hne
    change ∃ h, ((insSort runLeB (listRunRecs dp probe es)).take 1).map
        (fun r => ({ runId := r.runId, state := r.state } : RunEntry))
        = [⟨h.runId, h.state⟩] ∧ h ∈ listRunRecs dp probe es ∧
        ∀ r ∈ listRunRecs dp probe es, runLeB h r = true
    cases hsorted : insSort runLeB (listRunRecs dp probe es) with
    | nil =>
      rw [hsorted] at hperm
      exact absurd (hperm.symm.eq_nil) hne
    | cons h t =>
      refine ⟨h, by simp, ?_, ?_⟩
      · rw [← hperm.mem_iff, hsorted]
        exact List.mem_cons_self _ _
      · intro r hr
        rw [← hperm.mem_iff, hsorted] at hr
        rcases List.mem_cons.mp hr with h' | hmem
        · rw [h']; exact runLeB_refl _
        · rw [hsorted] at hpair
          exact (List.pairwise_cons.mp hpair).1 r hmem



/-- **C7 counterexample.** The sort key is not "the most recent of
`updated_at`/`started_at`": run `a` has `updated_at` parsing to 1000 and
`started_at` parsing to 3000 (most recent 3000), run `b` has `updated_at`
parsing to 2000 (most recent 2000); sorting by most-recent-of would place `a`
first, but the code keys on `updated_at` alone when it is nonzero and
returns `b` first. -/
theorem listRuns_fallback_counterexample :
    listRuns true
        (fun s => if s = "A" then some 1000 else if s = "B" then some 3000
                  else if s = "C" then some 2000 else none)
        (fun _ => .ok)
        (some [("a", some "\x7b\"updated_at\":\"A\",\"started_at\":\"B\"\x7d"),
               ("b", some "\x7b\"updated_at\":\"C\"\x7d")]) Option.none =
      .ok [{ runId := "b", state := some (.jobj [("updated_at", .jstr "C")]) },
           { runId := "a", state := some (.jobj [("updated_at", .jstr "A"),
               ("started_at", .jstr "B")]) }] ∧
    max (isoToMs
          (fun s => if s = "A" then some 1000 else if s = "B" then some 3000
                    else if s = "C" then some 2000 else none)
          (optGet (some (.jobj [("updated_at", .jstr "A"),
            ("started_at", .jstr "B")])) "updated_at"))
        (isoToMs
          (fun s => if s = "A" then some 1000 else if s = "B" then some 3000
                    else if s = "C" then some 2000 else none)
          (optGet (some (.jobj [("updated_at", .jstr "A"),
            ("started_at", .jstr "B")])) "started_at"))
      > max (isoToMs
          (fun s => if s = "A" then some 1000 else if s = "B" then some 3000
                    else if s = "C" then some 2000 else none)
          (optGet (some (.jobj [("updated_at", .jstr "C")])) "updated_at"))
        (isoToMs
          (fun s => if s = "A" then some 1000 else if s = "B" then some 3000
                    else if s = "C" then some 2000 else none)
          (optGet (some (.jobj [("updated_at", .jstr "C")])) "started_at")) := by
  exact ⟨rfl, by decide⟩

/-- Witness for C7 (amended): three runs with distinct parseable
`updated_at` timestamps and `limit = 1` return exactly one maximal run. -/
theorem listRuns_sorted_witness :
    ∃ out, listRuns true
        (fun s => if s = "T1" then some 1000 else if s = "T2" then some 2000
                  else if s = "T3" then some 3000 else none)
        (fun _ => .ok)
        (some [("r1", some "\x7b\"updated_at\":\"T1\"\x7d"),
               ("r2", some "\x7b\"updated_at\":\"T3\"\x7d"),
               ("r3", some "\x7b\"updated_at\":\"T2\"\x7d")]) (some 1) = .ok out ∧
      ∃ h, out = [⟨h.runId, h.state⟩] ∧
        ∀ r ∈ listRunRecs
          (fun s => if s = "T1" then some 1000 else if s = "T2" then some 2000
                    else if s = "T3" then some 3000 else none)
          (fun _ => .ok)
          [("r1", some "\x7b\"updated_at\":\"T1\"\x7d"),
           ("r2", some "\x7b\"updated_at\":\"T3\"\x7d"),
           ("r3", some "\x7b\"updated_at\":\"T2\"\x7d")], runLeB h r = true := by
  obtain ⟨out, hok, -, -, -, -, -, hlast⟩ := listRuns_sorted
    (fun s => if s = "T1" then some 1000 else if s = "T2" then some 2000
              else if s = "T3" then some 3000 else none)
    (fun _ => .ok)
    [("r1", some "\x7b\"updated_at\":\"T1\"\x7d"),
     ("r2", some "\x7b\"updated_at\":\"T3\"\x7d"),
     ("r3", some "\x7b\"updated_at\":\"T2\"\x7d")] (some 1)
  obtain ⟨h, h1, -, h3⟩ := hlast rfl (List.cons_ne_nil _ _)
  exact ⟨out, hok, h, h1, h3⟩

/-! ## C10: persistent grants are per-browser-id -/

theorem char_toNat_inj {c d : Char} (h : c.toNat = d.toNat) : c = d := by
  have hc := Char.ofNat_toNat c
  rw [h, Char.ofNat_toNat] at hc
  exact hc.symm

theorem isDigit_bounds {c : Char} (h : c.isDigit = true) :
    48 ≤ c.toNat ∧ c.toNat ≤ 57 := by
  simp only [Char.isDigit, ge_iff_le, Bool.and_eq_true, decide_eq_true_eq] at h
  obtain ⟨h1, h2⟩ := h
  rw [UInt32.le_def, BitVec.le_def] at h1 h2
  exact ⟨h1, h2⟩

theorem toDig_lt {c : Char} (h : c.isDigit = true) : toDig c < 10 := by
  have := isDigit_bounds h
  unfold toDig
  have h0 : '0'.toNat = 48 := rfl
  omega

theorem toDig_inj {c d : Char} (hc : c.isDigit = true) (hd : d.isDigit = true)
    (h : toDig c = toDig d) : c = d := by
  have h1 := isDigit_bounds hc
  have h2 := isDigit_bounds hd
  apply char_toNat_inj
  unfold toDig at h
  have h0 : '0'.toNat = 48 := rfl
  omega

theorem toDig_pos {c : Char} (hc : c.isDigit = true) (hne : c ≠ '0') :
    toDig c ≠ 0 := by
  have h1 := isDigit_bounds hc
  intro h
  apply hne
  apply char_toNat_inj
  unfold toDig at h
  have h0 : '0'.toNat = 48 := rfl
  omega

theorem digitsVal_eq_ofDigits (cs : List Char) :
    digitsVal cs = Nat.ofDigits 10 ((cs.map toDig).reverse) := by
  induction cs using List.reverseRecOn with
  | nil => rfl
  | append_singleton cs c ih =>
    have hfold : digitsVal (cs ++ [c]) = digitsVal cs * 10 + toDig c := by
      unfold digitsVal
      rw [List.foldl_append]
      rfl
    rw [hfold, List.map_append, List.reverse_append, ih]
    simp [Nat.ofDigits_cons]
    ring

theorem map_toDig_inj : ∀ (cs ds : List Char), (∀ c ∈ cs, c.isDigit = true) →
    (∀ d ∈ ds, d.isDigit = true) → cs.map toDig = ds.map toDig → cs = ds := by
  intro cs
  induction cs with
  | nil => intro ds _ _ h; cases ds <;> simp_all
  | cons c cs ih =>
    intro ds hcs hds h
    cases ds with
    | nil => simp at h
    | cons d ds =>
      simp only [List.map_cons, List.cons.injEq] at h
      have hcd := toDig_inj (hcs c (by simp)) (hds d (by simp)) h.1
      rw [hcd, ih ds (fun x hx => hcs x (by simp [hx]))
        (fun x hx => hds x (by simp [hx])) h.2]

theorem isCanonIdx_spec {k : String} (h : isCanonIdx k = true) :
    k.data = ['0'] ∨ ∃ c cs, k.data = c :: cs ∧ c.isDigit = true ∧ c ≠ '0' ∧
      ∀ x ∈ cs, x.isDigit = true := by
  unfold isCanonIdx at h
  rcases hk : k.data with _ | ⟨c, cs⟩
  · rw [hk] at h; exact absurd h (by simp)
  · rw [hk] at h
    dsimp only at h
    by_cases hc : c = '0'
    · subst hc
      rw [if_pos rfl] at h
      left
      rw [List.isEmpty_iff.mp h]
    · right
      rw [if_neg hc] at h
      simp only [Bool.and_eq_true, List.all_eq_true] at h
      exact ⟨c, cs, rfl, h.1.1, hc, fun x hx => h.1.2 x hx⟩

theorem canon_digits {k : String} (h : isCanonIdx k = true)
    (h0 : k.data ≠ ['0']) :
    Nat.digits 10 (digitsVal k.data) = (k.data.map toDig).reverse := by
  rcases isCanonIdx_spec h with hk | ⟨c, cs, hk, hdig, hc0, hcs⟩
  · exact absurd hk h0
  · rw [digitsVal_eq_ofDigits]
    refine Nat.digits_ofDigits 10 (by norm_num) _ ?_ ?_
    · intro l hl
      rw [List.mem_reverse, List.mem_map] at hl
      obtain ⟨x, hx, rfl⟩ := hl
      rw [hk] at hx
      rcases List.mem_cons.mp hx with rfl | hx
      · exact toDig_lt hdig
      · exact toDig_lt (hcs x hx)
    · intro hne
      have hL : (List.map toDig k.data).reverse
          = (List.map toDig cs).reverse ++ [toDig c] := by
        rw [hk]; simp
      have h1 : (List.map toDig k.data).reverse.getLast? = some (toDig c) := by
        rw [hL]
        simp
      rw [List.getLast?_eq_getLast _ hne] at h1
      rw [Option.some_inj.mp h1]
      exact toDig_pos hdig hc0

theorem canonIdx_inj {a b : String} (ha : isCanonIdx a = true)
    (hb : isCanonIdx b = true) (h : digitsVal a.data = digitsVal b.data) :
    a = b := by
  have hdata : a.data = b.data := by
    by_cases h0a : a.data = ['0'] <;> by_cases h0b : b.data = ['0']
    · rw [h0a, h0b]
    · exfalso
      rw [h0a] at h
      have hz : digitsVal ['0'] = 0 := rfl
      rw [hz] at h
      have hd := canon_digits hb h0b
      rw [← h, Nat.digits_zero] at hd
      rcases isCanonIdx_spec hb with hk | ⟨c, cs, hk, _, _, _⟩
      · exact h0b hk
      · rw [hk] at hd
        simp at hd
    · exfalso
      rw [h0b] at h
      have hz : digitsVal ['0'] = 0 := rfl
      rw [hz] at h
      have hd := canon_digits ha h0a
      rw [h, Nat.digits_zero] at hd
      rcases isCanonIdx_spec ha with hk | ⟨c, cs, hk, _, _, _⟩
      · exact h0a hk
      · rw [hk] at hd
        simp at hd
    · have hda := canon_digits ha h0a
      have hdb := canon_digits hb h0b
      rw [h, hdb] at hda
      have hmap := List.reverse_injective hda
      have hdiga : ∀ c ∈ a.data, c.isDigit = true := by
        rcases isCanonIdx_spec ha with hk | ⟨c, cs, hk, hdig, _, hcs⟩
        · exact absurd hk h0a
        · intro x hx
          rw [hk] at hx
          rcases List.mem_cons.mp hx with rfl | hx
          · exact hdig
          · exact hcs x hx
      have hdigb : ∀ c ∈ b.data, c.isDigit = true := by
        rcases isCanonIdx_spec hb with hk | ⟨c, cs, hk, hdig, _, hcs⟩
        · exact absurd hk h0b
        · intro x hx
          rw [hk] at hx
          rcases List.mem_cons.mp hx with rfl | hx
          · exact hdig
          · exact hcs x hx
      exact (map_toDig_inj _ _ hdigb hdiga hmap).symm
  cases a with
  | mk la => cases b with
    | mk lb =>
      simp only [String.data] at hdata
      rw [hdata]



theorem getField_setField_self (fs : List (String × JVal)) (k : String) (v : JVal) :
    ((setField fs k v).find? (fun p => p.fst = k)).map Prod.snd = some v := by
  induction fs with
  | nil => simp [setField, List.find?]
  | cons hd tl ih =>
    obtain ⟨l, w⟩ := hd
    by_cases h : l = k
    · subst h; simp [setField, List.find?]
    · simp only [setField, if_neg h, List.find?]
      rw [decide_eq_false h]
      exact ih

theorem find?_setField_ne (fs : List (String × JVal)) (k k' : String) (v : JVal)
    (h : k' ≠ k) :
    (setField fs k v).find? (fun p => p.fst = k')
      = fs.find? (fun p => p.fst = k') := by
  induction fs with
  | nil => simp [setField, List.find?, Ne.symm h]
  | cons hd tl ih =>
    obtain ⟨l, w⟩ := hd
    by_cases hl : l = k
    · subst hl
      simp [setField, List.find?, Ne.symm h]
    · by_cases hl' : l = k'
      · subst hl'
        simp [setField, hl, List.find?]
      · simp only [setField, if_neg hl, List.find?]
        rw [decide_eq_false hl']
        exact ih

theorem isAllowedDoc_jobj (fs : List (String × JVal)) (b : String) :
    isAlwaysAllowedDoc (some (some (.jobj fs))) b
      = jsTruthy (optGet (optGet ((fs.find? (fun p => p.fst = "browsers")).map
          Prod.snd) b) "allowed") := rfl

theorem optGet_of_not_objLike (o : Option JVal) (h : jsObjLike o = false)
    (k : String) : optGet o k = none := by
  rcases o with _ | v
  · rfl
  · cases v <;> first | rfl | (simp [jsObjLike] at h)

theorem jsObjLike_shape (o : Option JVal) (h : jsObjLike o = true) :
    (∃ g, o = some (.jobj g)) ∨ (∃ xs, o = some (.jarr xs)) := by
  rcases o with _ | v
  · simp [jsObjLike] at h
  · cases v with
    | jarr xs => exact Or.inr ⟨xs, rfl⟩
    | jobj g => exact Or.inl ⟨g, rfl⟩
    | jnull => simp [jsObjLike] at h
    | jbool b => simp [jsObjLike] at h
    | jnum n => simp [jsObjLike] at h
    | jstr s => simp [jsObjLike] at h

theorem setAlways_after_objLike (fs : List (String × JVal)) (b1 ts : String)
    (v : JVal) (hbr : getProp (.jobj fs) "browsers" = some v)
    (hobj : jsObjLike (some v) = true) :
    setAlwaysAllowedDoc (some (some (.jobj fs))) b1 ts
      = .jobj (setField fs "browsers" (setProp v b1 (grantRec ts))) := by
  unfold setAlwaysAllowedDoc
  dsimp only
  rw [if_pos (show jsObjLike (some (JVal.jobj fs)) = true from rfl)]
  rw [hbr]
  rw [if_pos hobj]
  rw [hbr]
  rfl

theorem setAlways_after_not_objLike (fs : List (String × JVal)) (b1 ts : String)
    (hobj : jsObjLike (getProp (.jobj fs) "browsers") = false) :
    setAlwaysAllowedDoc (some (some (.jobj fs))) b1 ts
      = .jobj (setField (setField fs "browsers" (.jobj []))
          "browsers" (.jobj [(b1, grantRec ts)])) := by
  unfold setAlwaysAllowedDoc
  dsimp only
  rw [if_pos (show jsObjLike (some (JVal.jobj fs)) = true from rfl)]
  rw [if_neg (by rw [hobj]; exact Bool.false_ne_true)]
  have h2 : getProp (JVal.jobj (setField fs "browsers" (JVal.jobj [])))
      "browsers" = some (.jobj []) :=
    getField_setField_self fs "browsers" (.jobj [])
  dsimp only [setProp]
  rw [h2]
  rfl



theorem setProp_jarr_shape (xs : List JVal) (k : String) (v : JVal) :
    ∃ ys, setProp (.jarr xs) k v = .jarr ys := by
  unfold setProp
  dsimp only
  split_ifs <;> exact ⟨_, rfl⟩

theorem optGet_jarr (xs : List JVal) (k : String) :
    optGet (some (.jarr xs)) k
      = if isCanonIdx k then xs[digitsVal k.data]? else none := rfl

theorem jsTruthy_allowed_none_or_null (o : Option JVal)
    (h : o = none ∨ o = some .jnull) :
    jsTruthy (optGet o "allowed") = false := by
  rcases h with rfl | rfl <;> rfl

theorem jarr_set_get_frame (xs : List JVal) (b1 b2 : String) (g : JVal)
    (hne : b1 ≠ b2) :
    jsTruthy (optGet (optGet (some (setProp (.jarr xs) b1 g)) b2) "allowed")
      = jsTruthy (optGet (optGet (some (.jarr xs)) b2) "allowed") := by
  by_cases h1 : isCanonIdx b1 = true
  · by_cases h2 : isCanonIdx b2 = true
    · have hij : digitsVal b1.data ≠ digitsVal b2.data :=
        fun hv => hne (canonIdx_inj h1 h2 hv)
      unfold setProp
      dsimp only
      rw [if_pos h1]
      by_cases hlt : digitsVal b1.data < xs.length
      · rw [if_pos hlt]
        rw [optGet_jarr, optGet_jarr, if_pos h2, if_pos h2]
        rw [List.getElem?_set_ne hij]
      · rw [if_neg hlt]
        have hi_ge : xs.length ≤ digitsVal b1.data := Nat.le_of_not_lt hlt
        by_cases hj : digitsVal b2.data < xs.length
        · rw [optGet_jarr, optGet_jarr, if_pos h2, if_pos h2]
          rw [List.append_assoc]
          rw [List.getElem?_append_left hj]
        · have hxj : xs[digitsVal b2.data]? = none :=
            List.getElem?_eq_none (Nat.le_of_not_lt hj)
          rw [optGet_jarr, optGet_jarr, if_pos h2, if_pos h2, hxj]
          rw [jsTruthy_allowed_none_or_null none (Or.inl rfl)]
          refine (jsTruthy_allowed_none_or_null _ ?_).trans rfl
          rcases Nat.lt_or_ge (digitsVal b2.data) (digitsVal b1.data) with hlt2 | hge2
          · right
            rw [List.append_assoc]
            rw [List.getElem?_append_right (Nat.le_of_not_lt hj)]
            rw [List.getElem?_append_left (by
              rw [List.length_replicate]
              omega)]
            rw [List.getElem?_replicate, if_pos (by omega)]
          · left
            apply List.getElem?_eq_none
            have h3 : digitsVal b1.data < digitsVal b2.data := by
              rcases Nat.lt_or_ge (digitsVal b1.data) (digitsVal b2.data) with h | h
              · exact h
              · exact absurd (Nat.le_antisymm hge2 h) hij
            simp [List.length_replicate]
            omega
    · obtain ⟨ys, hys⟩ := setProp_jarr_shape xs b1 g
      rw [hys, optGet_jarr, optGet_jarr, if_neg (by simp [h2]), if_neg (by simp [h2])]
  · unfold setProp
    dsimp only
    rw [if_neg h1]



/-- **C10.** If the persistent-allow document exists and parses as a JSON
object, then `setAlwaysAllowed(root, b1)` leaves any other browser id `b2`
unaffected: `isAlwaysAllowed(root, b2)` returns the same value against the
rewritten document as against the original — the write only adds or
overwrites the entry for `b1`.  And if the document exists but is unparsable,
`setAlwaysAllowed` rewrites it from scratch, discarding all previously
recorded grants: the rewritten document records exactly the one `b1`
entry. -/
theorem setAlwaysAllowed_frame (fs : List (String × JVal)) (b1 b2 ts : String)
    (hne : b1 ≠ b2) :
    isAlwaysAllowedDoc
        (some (some (setAlwaysAllowedDoc (some (some (.jobj fs))) b1 ts))) b2
      = isAlwaysAllowedDoc (some (some (.jobj fs))) b2 ∧
    setAlwaysAllowedDoc (some none) b1 ts
      = .jobj [("browsers", .jobj [(b1, grantRec ts)])] := by
  refine ⟨?_, by rfl⟩
  have hdoc : ∀ (w : JVal) (b : String), isAlwaysAllowedDoc (some (some w)) b
      = jsTruthy (optGet (optGet (optGet (some w) "browsers") b) "allowed") :=
    fun _ _ => rfl
  by_cases hobj : jsObjLike (getProp (.jobj fs) "browsers") = true
  · rcases jsObjLike_shape _ hobj with ⟨g, hg⟩ | ⟨xs, hx⟩
    · rw [setAlways_after_objLike fs b1 ts _ hg rfl]
      rw [hdoc, hdoc]
      have e1 : optGet (some (JVal.jobj (setField fs "browsers"
          (setProp (.jobj g) b1 (grantRec ts))))) "browsers"
          = some (setProp (.jobj g) b1 (grantRec ts)) :=
        getField_setField_self _ _ _
      have e2 : optGet (some (JVal.jobj fs)) "browsers" = some (.jobj g) := hg
      rw [e1, e2]
      have e3 : optGet (some (setProp (.jobj g) b1 (grantRec ts))) b2
          = optGet (some (.jobj g)) b2 := by
        show ((setField g b1 (grantRec ts)).find?
            (fun p => p.fst = b2)).map Prod.snd
            = (g.find? (fun p => p.fst = b2)).map Prod.snd
        rw [find?_setField_ne g b1 b2 (grantRec ts) (Ne.symm hne)]
      rw [e3]
    · rw [setAlways_after_objLike fs b1 ts _ hx rfl]
      rw [hdoc, hdoc]
      have e1 : optGet (some (JVal.jobj (setField fs "browsers"
          (setProp (.jarr xs) b1 (grantRec ts))))) "browsers"
          = some (setProp (.jarr xs) b1 (grantRec ts)) :=
        getField_setField_self _ _ _
      have e2 : optGet (some (JVal.jobj fs)) "browsers" = some (.jarr xs) := hx
      rw [e1, e2]
      exact jarr_set_get_frame xs b1 b2 (grantRec ts) hne
  · have hobj' : jsObjLike (getProp (.jobj fs) "browsers") = false := by
      simpa using hobj
    rw [setAlways_after_not_objLike fs b1 ts hobj']
    rw [hdoc, hdoc]
    have e1 : optGet (some (JVal.jobj (setField (setField fs "browsers"
        (.jobj [])) "browsers" (.jobj [(b1, grantRec ts)])))) "browsers"
        = some (.jobj [(b1, grantRec ts)]) :=
      getField_setField_self _ _ _
    rw [e1]
    have e2 : optGet (some (JVal.jobj [(b1, grantRec ts)])) b2 = none := by
      show ([(b1, grantRec ts)].find? (fun p => p.fst = b2)).map Prod.snd = none
      simp only [List.find?]
      rw [decide_eq_false hne]
      rfl
    rw [e2]
    have e3 : optGet (optGet (some (JVal.jobj fs)) "browsers") b2 = none :=
      optGet_of_not_objLike _ hobj' b2
    rw [e3]

/-- Witness for C10: a document granting `b2`, then granting `b1`, leaves
`b2`'s read unchanged; an unparsable document is rebuilt from scratch. -/
theorem setAlwaysAllowed_frame_witness :
    isAlwaysAllowedDoc (some (some (setAlwaysAllowedDoc
        (some (some (.jobj [("browsers", .jobj [("b2", grantRec "T0")])])))
        "b1" "T1"))) "b2"
      = isAlwaysAllowedDoc (some (some (.jobj [("browsers",
          .jobj [("b2", grantRec "T0")])]))) "b2" ∧
    setAlwaysAllowedDoc (some none) "b1" "T1"
      = .jobj [("browsers", .jobj [("b1", grantRec "T1")])] :=
  setAlwaysAllowed_frame [("browsers", .jobj [("b2", grantRec "T0")])]
    "b1" "b2" "T1" (by decide)

/-! ## C3: the path sandbox root check -/

theorem isPre_iff [DecidableEq α] (a b : List α) : isPre a b = true ↔ a <+: b := by
  induction a generalizing b with
  | nil => simp [isPre]
  | cons x xs ih =>
    cases b with
    | nil => simp [isPre]
    | cons y ys =>
      simp only [isPre]
      by_cases h : x = y
      · subst h
        rw [if_pos rfl, ih]
        simp [List.cons_prefix_cons]
      · rw [if_neg h]
        simp [List.cons_prefix_cons, h]

theorem splitOnChar_not_mem (sep : Char) (cs : List Char) :
    ∀ p ∈ splitOnChar sep cs, sep ∉ p := by
  induction cs with
  | nil =>
    intro p hp
    simp [splitOnChar] at hp
    simp [hp]
  | cons c cs ih =>
    intro p hp
    by_cases hc : c = sep
    · rw [splitOnChar, if_pos hc] at hp
      rcases List.mem_cons.mp hp with rfl | hp
      · simp
      · exact ih p hp
    · rw [splitOnChar, if_neg hc] at hp
      rcases hsplit : splitOnChar sep cs with _ | ⟨q, qs⟩
      · rw [hsplit] at hp
        rcases List.mem_cons.mp hp with rfl | hp
        · intro hmem
          rcases List.mem_cons.mp hmem with rfl | h
          · exact hc rfl
          · simp at h
        · simp at hp
      · rw [hsplit] at hp
        rcases List.mem_cons.mp hp with rfl | hp
        · intro hmem
          rcases List.mem_cons.mp hmem with rfl | h
          · exact hc rfl
          · exact ih q (by rw [hsplit]; exact List.mem_cons_self _ _) h
        · exact ih p (by rw [hsplit]; exact List.mem_cons_of_mem _ hp)

theorem splitOnChar_no_sep (sep : Char) (a : List Char) (h : sep ∉ a) :
    splitOnChar sep a = [a] := by
  induction a with
  | nil => rfl
  | cons c cs ih =>
    have hc : ¬c = sep := fun hh => h (hh ▸ List.mem_cons_self c cs)
    rw [splitOnChar, if_neg hc, ih (fun hh => h (List.mem_cons_of_mem _ hh))]

theorem splitOnChar_append_sep (sep : Char) (a b : List Char) (h : sep ∉ a) :
    splitOnChar sep (a ++ sep :: b) = a :: splitOnChar sep b := by
  induction a with
  | nil => simp [splitOnChar]
  | cons c cs ih =>
    have hc : ¬c = sep := fun hh => h (hh ▸ List.mem_cons_self c cs)
    rw [List.cons_append, splitOnChar, if_neg hc,
      ih (fun hh => h (List.mem_cons_of_mem _ hh))]

theorem normSegsOf_good_aux (segs : List (List Char))
    (hsegs : ∀ s ∈ segs, '/' ∉ s) (acc : List (List Char))
    (hacc : ∀ s ∈ acc, s ≠ [] ∧ '/' ∉ s) :
    ∀ s ∈ segs.foldl normStep acc, s ≠ [] ∧ '/' ∉ s := by
  induction segs generalizing acc with
  | nil => exact hacc
  | cons seg rest ih =>
    rw [List.foldl_cons]
    refine ih (fun s hs => hsegs s (List.mem_cons_of_mem _ hs)) _ ?_
    intro s hs
    unfold normStep at hs
    split_ifs at hs with h1 h2
    · exact hacc s hs
    · exact hacc s (List.dropLast_subset _ hs)
    · rcases List.mem_append.mp hs with hs | hs
      · exact hacc s hs
      · rcases List.mem_singleton.mp hs with rfl
        push_neg at h1
        exact ⟨h1.1, hsegs s (List.mem_cons_self _ _)⟩

theorem normSegsOf_good (cs : List Char) :
    ∀ s ∈ normSegsOf cs, s ≠ [] ∧ '/' ∉ s :=
  normSegsOf_good_aux _ (fun s hs => splitOnChar_not_mem '/' cs s hs) []
    (by simp)

theorem splitOnChar_joinSegs (l : List (List Char))
    (hg : ∀ s ∈ l, s ≠ [] ∧ '/' ∉ s) :
    splitOnChar '/' (joinSegs l) = if l = [] then [[]] else l := by
  induction l with
  | nil => rfl
  | cons s rest ih =>
    rcases rest with _ | ⟨s2, rest'⟩
    · rw [joinSegs, splitOnChar_no_sep '/' s (hg s (List.mem_cons_self _ _)).2]
      simp
    · rw [joinSegs, splitOnChar_append_sep '/' _ _
        (hg s (List.mem_cons_self _ _)).2]
      rw [ih (fun x hx => hg x (List.mem_cons_of_mem _ hx))]
      rw [if_neg (List.cons_ne_nil _ _), if_neg (List.cons_ne_nil _ _)]
      exact List.cons_ne_nil _ _

theorem segsOf_norm (l : List (List Char)) (hg : ∀ s ∈ l, s ≠ [] ∧ '/' ∉ s) :
    segsOf ('/' :: joinSegs l) = l := by
  unfold segsOf
  rw [show ('/' :: joinSegs l) = [] ++ '/' :: joinSegs l from rfl,
    splitOnChar_append_sep '/' [] _ (by simp),
    splitOnChar_joinSegs l hg]
  rcases l with _ | ⟨s, rest⟩
  · rfl
  · rw [if_neg (by simp)]
    rw [List.filter_cons_of_neg (by simp), List.filter_eq_self.mpr]
    intro a ha
    simpa using (hg a ha).1



theorem isPre_sep (x : List Char) : ∀ (y u v : List Char), '/' ∉ x → '/' ∉ y →
    ((isPre (x ++ '/' :: u) (y ++ '/' :: v) = true) ↔
      (x = y ∧ isPre u v = true)) := by
  induction x with
  | nil =>
    intro y u v _ hy
    cases y with
    | nil => simp [isPre]
    | cons c ys =>
      have hc : ('/' : Char) ≠ c := fun h => hy (h ▸ List.mem_cons_self c ys)
      show (if '/' = c then isPre u (ys ++ '/' :: v) else false) = true
        ↔ (([] : List Char) = c :: ys ∧ isPre u v = true)
      rw [if_neg hc]
      simp
  | cons a xs ih =>
    intro y u v hx hy
    cases y with
    | nil =>
      have ha : a ≠ '/' := fun h => hx (h ▸ List.mem_cons_self a xs)
      show (if a = '/' then isPre (xs ++ '/' :: u) v else false) = true
        ↔ (a :: xs = ([] : List Char) ∧ isPre u v = true)
      rw [if_neg ha]
      simp
    | cons b ys =>
      show (if a = b then isPre (xs ++ '/' :: u) (ys ++ '/' :: v) else false)
          = true ↔ (a :: xs = b :: ys ∧ isPre u v = true)
      by_cases hab : a = b
      · subst hab
        rw [if_pos rfl,
          ih ys u v (fun h => hx (List.mem_cons_of_mem _ h))
            (fun h => hy (List.mem_cons_of_mem _ h))]
        simp [List.cons.injEq]
      · rw [if_neg hab]
        simp [hab]

theorem isPre_mem {a b : List Char} (h : isPre a b = true) {c : Char}
    (hc : c ∈ a) : c ∈ b :=
  ((isPre_iff a b).mp h).sublist.subset hc

theorem isPre_joinSegs (sa : List (List Char)) :
    ∀ (sb : List (List Char)), (∀ s ∈ sa, s ≠ [] ∧ '/' ∉ s) →
    (∀ s ∈ sb, s ≠ [] ∧ '/' ∉ s) → sa ≠ [] →
    ((isPre (joinSegs sa ++ ['/']) (joinSegs sb) = true) ↔
      (sa <+: sb ∧ sa ≠ sb)) := by
  induction sa with
  | nil => intro sb _ _ hne; exact absurd rfl hne
  | cons x sa' ih =>
    intro sb hga hgb _
    have hgx := hga x (List.mem_cons_self _ _)
    rcases sa' with _ | ⟨x2, sa''⟩
    · rcases sb with _ | ⟨y, sb'⟩
      · constructor
        · intro h
          rcases x with _ | ⟨c, cs⟩
          · exact absurd rfl hgx.1
          · rw [show joinSegs ([] : List (List Char)) = [] from rfl] at h
            simp [isPre] at h
        · rintro ⟨h, -⟩
          exact absurd (List.prefix_nil.mp h) (List.cons_ne_nil _ _)
      · have hgy := hgb y (List.mem_cons_self _ _)
        rcases sb' with _ | ⟨y2, sb''⟩
        · rw [show joinSegs [x] = x from rfl, show joinSegs [y] = y from rfl]
          constructor
          · intro h
            exact absurd (isPre_mem h (by simp)) hgy.2
          · rintro ⟨h1, h2⟩
            rcases List.cons_prefix_cons.mp h1 with ⟨rfl, -⟩
            exact absurd rfl h2
        · rw [show joinSegs [x] = x from rfl,
            show joinSegs (y :: y2 :: sb'') = y ++ '/' :: joinSegs (y2 :: sb'')
              from rfl]
          rw [isPre_sep x y [] _ hgx.2 hgy.2]
          constructor
          · rintro ⟨rfl, -⟩
            exact ⟨⟨y2 :: sb'', rfl⟩, by simp⟩
          · rintro ⟨h1, -⟩
            rcases List.cons_prefix_cons.mp h1 with ⟨rfl, -⟩
            exact ⟨rfl, rfl⟩
    · rcases sb with _ | ⟨y, sb'⟩
      · constructor
        · intro h
          rw [show joinSegs ([] : List (List Char)) = [] from rfl,
            show joinSegs (x :: x2 :: sa'')
              = x ++ '/' :: joinSegs (x2 :: sa'') from rfl] at h
          rcases x with _ | ⟨c, cs⟩
          · simp [isPre] at h
          · simp [isPre] at h
        · rintro ⟨h, -⟩
          exact absurd (List.prefix_nil.mp h) (List.cons_ne_nil _ _)
      · have hgy := hgb y (List.mem_cons_self _ _)
        rcases sb' with _ | ⟨y2, sb''⟩
        · rw [show joinSegs (x :: x2 :: sa'')
              = x ++ '/' :: joinSegs (x2 :: sa'') from rfl,
            show joinSegs [y] = y from rfl]
          constructor
          · intro h
            exact absurd (isPre_mem h (by simp)) hgy.2
          · rintro ⟨h1, -⟩
            have := h1.length_le
            simp at this
        · rw [show joinSegs (x :: x2 :: sa'')
              = x ++ '/' :: joinSegs (x2 :: sa'') from rfl,
            show joinSegs (y :: y2 :: sb'')
              = y ++ '/' :: joinSegs (y2 :: sb'') from rfl]
          rw [show (x ++ '/' :: joinSegs (x2 :: sa'')) ++ ['/']
              = x ++ '/' :: (joinSegs (x2 :: sa'') ++ ['/']) from by simp]
          rw [isPre_sep x y _ _ hgx.2 hgy.2]
          rw [ih (y2 :: sb'') (fun s hs => hga s (List.mem_cons_of_mem _ hs))
            (fun s hs => hgb s (List.mem_cons_of_mem _ hs))
            (List.cons_ne_nil _ _)]
          constructor
          · rintro ⟨rfl, h2, h3⟩
            exact ⟨List.cons_prefix_cons.mpr ⟨rfl, h2⟩, by
              intro hh
              exact h3 (by injection hh)⟩
          · rintro ⟨h1, h2⟩
            rcases List.cons_prefix_cons.mp h1 with ⟨rfl, h3⟩
            exact ⟨rfl, h3, fun hh => h2 (by rw [hh])⟩

theorem joinSegs_head_ne_slash (la : List (List Char))
    (hga : ∀ s ∈ la, s ≠ [] ∧ '/' ∉ s) :
    isPre ['/'] (joinSegs la) = false := by
  rcases la with _ | ⟨s, rest⟩
  · rfl
  · have hgs := hga s (List.mem_cons_self _ _)
    rcases s with _ | ⟨c, cs⟩
    · exact absurd rfl hgs.1
    · have hc : ('/' : Char) ≠ c :=
        fun hh => hgs.2 (hh ▸ List.mem_cons_self _ _)
      rcases rest with _ | ⟨r2, rest'⟩
      · show (if '/' = c then isPre [] cs else false) = false
        rw [if_neg hc]
      · show (if '/' = c then
            isPre [] (cs ++ '/' :: joinSegs (r2 :: rest')) else false) = false
        rw [if_neg hc]

theorem accept_base_iff (la lb : List (List Char))
    (hga : ∀ s ∈ la, s ≠ [] ∧ '/' ∉ s) (hgb : ∀ s ∈ lb, s ≠ [] ∧ '/' ∉ s) :
    ((decide (('/' :: joinSegs la) = ('/' :: joinSegs lb))
      || isPre (('/' :: joinSegs lb) ++ ['/']) ('/' :: joinSegs la)) = true)
    ↔ (lb = la ∨ (lb ≠ [] ∧ lb <+: la ∧ lb ≠ la)) := by
  rw [Bool.or_eq_true, decide_eq_true_eq]
  have hinj : (('/' :: joinSegs la) = ('/' :: joinSegs lb)) ↔ la = lb := by
    constructor
    · intro h
      have h2 := congrArg segsOf h
      rw [segsOf_norm la hga, segsOf_norm lb hgb] at h2
      exact h2
    · intro h
      rw [h]
  have hpre : isPre (('/' :: joinSegs lb) ++ ['/']) ('/' :: joinSegs la) = true
      ↔ (lb ≠ [] ∧ lb <+: la ∧ lb ≠ la) := by
    rw [show isPre (('/' :: joinSegs lb) ++ ['/']) ('/' :: joinSegs la)
        = isPre (joinSegs lb ++ ['/']) (joinSegs la) from rfl]
    by_cases hb : lb = []
    · subst hb
      rw [show joinSegs ([] : List (List Char)) ++ ['/'] = ['/'] from rfl]
      rw [joinSegs_head_ne_slash la hga]
      simp
    · rw [isPre_joinSegs lb la hgb hga hb]
      constructor
      · rintro ⟨h1, h2⟩
        exact ⟨hb, h1, h2⟩
      · rintro ⟨-, h1, h2⟩
        exact ⟨h1, h2⟩
  rw [hinj, hpre]
  constructor
  · rintro (h | h)
    · exact Or.inl h.symm
    · exact Or.inr h
  · rintro (h | h)
    · exact Or.inl h.symm
    · exact Or.inr h

theorem dedupKeepFirst_aux (l₂ : List (List Char)) :
    ∀ (acc : List (List Char)), ∀ x ∈ l₂.foldl
      (fun acc x => if x ∈ acc then acc else acc ++ [x]) acc,
      x ∈ acc ∨ x ∈ l₂ := by
  induction l₂ with
  | nil => intro acc x hx; exact Or.inl hx
  | cons y ys ih =>
    intro acc x hx
    rw [List.foldl_cons] at hx
    rcases ih _ x hx with h | h
    · by_cases hy : y ∈ acc
      · rw [if_pos hy] at h
        exact Or.inl h
      · rw [if_neg hy] at h
        rcases List.mem_append.mp h with h | h
        · exact Or.inl h
        · rcases List.mem_singleton.mp h with rfl
          exact Or.inr (List.mem_cons_self _ _)
    · exact Or.inr (List.mem_cons_of_mem _ h)

theorem dedupKeepFirst_subset (l : List (List Char)) :
    ∀ x ∈ dedupKeepFirst l, x ∈ l := by
  intro x hx
  rcases dedupKeepFirst_aux l [] x hx with h | h
  · simp at h
  · exact h

theorem allowed_shape (cwd : List Char) (env : Option String) :
    ∀ base ∈ getAllowedRepoRoots cwd env,
      ∃ l, (∀ s ∈ l, s ≠ [] ∧ '/' ∉ s) ∧ base = '/' :: joinSegs l := by
  intro base hb
  unfold getAllowedRepoRoots at hb
  dsimp only at hb
  have hb' := dedupKeepFirst_subset _ base hb
  rcases List.mem_append.mp hb' with h | h
  · by_cases hraw : trimChars (env.getD "").data = []
    · rw [if_pos hraw] at h
      simp at h
    · rw [if_neg hraw] at h
      rcases List.mem_map.mp h with ⟨p, -, rfl⟩
      exact ⟨_, normSegsOf_good _, rfl⟩
  · rcases List.mem_singleton.mp h with rfl
    exact ⟨_, normSegsOf_good _, rfl⟩

/-- **C3 (amended).** `resolveRoot` lexically resolves the candidate to an
absolute, normalized path (`resolveAbs`; `path.resolve` performs no I/O, so
normalization is lexical, not symlink-chasing) and succeeds, returning that
path, iff the resolved path equals one of the allowed roots, or is a
path-separator-bounded proper descendant (segment-wise: the root's segments
are a proper prefix of its segments) of an allowed root other than the
filesystem root `/`; every other candidate fails.  An allowed root `/` is
special because the code's check appends a second separator (`"//"`), so it
matches only itself. -/
theorem resolveRepoRoot_charn (cwd : List Char) (env : Option String)
    (R : List Char) :
    ((resolveRepoRootOrThrow cwd env R).isSome = true ↔
      ∃ base ∈ getAllowedRepoRoots cwd env,
        resolveAbs cwd R = base ∨
        (segsOf base ≠ [] ∧ segsOf base <+: segsOf (resolveAbs cwd R) ∧
          segsOf base ≠ segsOf (resolveAbs cwd R))) ∧
    (∀ rr, resolveRepoRootOrThrow cwd env R = some rr →
      rr = resolveAbs cwd R ∧
      ∃ l, (∀ s ∈ l, s ≠ [] ∧ '/' ∉ s) ∧ rr = '/' :: joinSegs l) := by
  have hiff : ((getAllowedRepoRoots cwd env).any
      (fun base => decide (resolveAbs cwd R = base)
        || isPre (base ++ ['/']) (resolveAbs cwd R)) = true)
      ↔ ∃ base ∈ getAllowedRepoRoots cwd env,
        resolveAbs cwd R = base ∨
        (segsOf base ≠ [] ∧ segsOf base <+: segsOf (resolveAbs cwd R) ∧
          segsOf base ≠ segsOf (resolveAbs cwd R)) := by
    rw [List.any_eq_true]
    obtain ⟨la, hga, hraeq⟩ : ∃ l, (∀ s ∈ l, s ≠ [] ∧ '/' ∉ s) ∧
        resolveAbs cwd R = '/' :: joinSegs l := ⟨_, normSegsOf_good _, rfl⟩
    constructor
    · rintro ⟨base, hbmem, hbase⟩
      obtain ⟨lb, hgb, rfl⟩ := allowed_shape cwd env base hbmem
      have hinj : ('/' :: joinSegs la = '/' :: joinSegs lb) ↔ la = lb := by
        constructor
        · intro h
          have h2 := congrArg segsOf h
          rwa [segsOf_norm la hga, segsOf_norm lb hgb] at h2
        · intro h
          rw [h]
      rw [hraeq] at hbase
      have hacc := (accept_base_iff la lb hga hgb).mp hbase
      refine ⟨_, hbmem, ?_⟩
      rw [hraeq, segsOf_norm lb hgb, segsOf_norm la hga]
      rcases hacc with h | ⟨h1, h2, h3⟩
      · exact Or.inl (hinj.mpr h.symm)
      · exact Or.inr ⟨h1, h2, h3⟩
    · rintro ⟨base, hbmem, hbase⟩
      obtain ⟨lb, hgb, rfl⟩ := allowed_shape cwd env base hbmem
      have hinj : ('/' :: joinSegs la = '/' :: joinSegs lb) ↔ la = lb := by
        constructor
        · intro h
          have h2 := congrArg segsOf h
          rwa [segsOf_norm la hga, segsOf_norm lb hgb] at h2
        · intro h
          rw [h]
      rw [hraeq, segsOf_norm lb hgb, segsOf_norm la hga] at hbase
      refine ⟨_, hbmem, ?_⟩
      rw [hraeq]
      refine (accept_base_iff la lb hga hgb).mpr ?_
      rcases hbase with h | ⟨h1, h2, h3⟩
      · exact Or.inl (hinj.mp h).symm
      · exact Or.inr ⟨h1, h2, h3⟩
  constructor
  · unfold resolveRepoRootOrThrow
    dsimp only
    split
    · rename_i h
      exact iff_of_true rfl (hiff.mp h)
    · rename_i h
      refine iff_of_false (by simp) ?_
      intro hr
      exact h (hiff.mpr hr)
  · intro rr hrr
    unfold resolveRepoRootOrThrow at hrr
    dsimp only at hrr
    split_ifs at hrr with h
    have heq := Option.some_inj.mp hrr
    subst heq
    exact ⟨rfl, _, normSegsOf_good _, rfl⟩

/-- **C3 counterexample.** With the allow-list configured as the filesystem
root `/` (and cwd `/a`), the candidate `/etc` — a path-separator-bounded
descendant of the allowed root `/` — is rejected: the claimed "succeeds iff
equal to or a descendant of an allowed root" fails at root `/`, whose
`startsWith(base + sep)` check tests for the impossible prefix `//`. -/
theorem resolveRoot_slash_counterexample :
    resolveRepoRootOrThrow ('/' :: 'a' :: []) (some "/")
        ('/' :: 'e' :: 't' :: 'c' :: []) = none ∧
    ('/' :: []) ∈ getAllowedRepoRoots ('/' :: 'a' :: []) (some "/") ∧
    segsOf ('/' :: []) <+:
      segsOf (resolveAbs ('/' :: 'a' :: []) ('/' :: 'e' :: 't' :: 'c' :: [])) ∧
    resolveAbs ('/' :: 'a' :: []) ('/' :: 'e' :: 't' :: 'c' :: [])
      ≠ ('/' :: []) := by
  refine ⟨rfl, by decide, ?_, by decide⟩
  exact List.nil_prefix

/-- Witness for C3 (amended): with no environment override and cwd
`/w/apps/studio` (default allowed root `/w`), the candidate `/w/x` resolves
and is accepted as a proper descendant of `/w`. -/
theorem resolveRepoRoot_charn_witness :
    (resolveRepoRootOrThrow "/w/apps/studio".data none "/w/x".data).isSome
      = true ∧
    resolveAbs "/w/apps/studio".data "/w/x".data
      = '/' :: joinSegs [['w'], ['x']] := by
  refine ⟨?_, rfl⟩
  refine (resolveRepoRoot_charn "/w/apps/studio".data none "/w/x".data).1.mpr
    ⟨"/w".data, by decide, Or.inr ⟨by decide, ⟨[['x']], by decide⟩, by decide⟩⟩

end Noctune
